import Mathlib

/-!
# Growable buffer, contact directory and its text codec

A shallow embedding of the teaching programs `src/ch09/p19.c` (growable
`int` buffer), `src/ch08/p19.c` (find / delete in a contact array) and
`archive/v1/src/ch08/p20.c` (save / load of contacts as `name;phone;age`
lines), `archive/v1/src/ch08/p17.c` (adding a contact) and `src/ch12/p25.c`
(palindrome test), followed by theorems about them.

Conventions of the embedding:
* `size_t` values are natural numbers and every `size_t` operation of the
  source is reduced modulo `SIZE_MOD = 2 ^ 64`;
* a pointer to `int` storage is `Option (List Int)`: `none` is `NULL`, and
  `some xs` is a live block of `xs.length` slots holding `xs`;
* a function whose C behaviour is undefined on some input (a store or load
  outside the block, or through `NULL`) returns `none` there;
* whether the allocator can grant a request of `realloc` is an explicit
  Boolean argument; a request of zero bytes returns `NULL` whatever it says.
-/

namespace Ch09P19

/-- Number of values of `size_t`; arithmetic on `size_t` wraps modulo it. -/
def SIZE_MOD : Nat := 2 ^ 64

/-- The value of `sizeof(int)`. -/
def SIZEOF_INT : Nat := 4

/-- The record `typedef struct { int *data; size_t size, cap; } Dyn;`. -/
structure Dyn where
  data : Option (List Int)
  size : Nat
  cap : Nat
  deriving DecidableEq, Repr

/-- Source: `void init(Dyn *d) { d->data = NULL; d->size = d->cap = 0; }`.
All three fields are overwritten, whatever they held. -/
def init (_d : Dyn) : Dyn :=
  { data := none, size := 0, cap := 0 }

/-- The library call `realloc(p, bytes)`; `ok` says whether the allocator
can grant the request.  The result is `NULL` when it cannot, and also when
`bytes` is 0, which is what the C library answers to `realloc(p, 0)` on a
live block (`push_back` asks for 0 bytes only when its byte count has
wrapped); `push_back` then returns 0 with its three fields as they were.
Otherwise the result is a block of `bytes / sizeof(int)` slots whose leading
slots are copied from the old block; slots that the C standard leaves
indeterminate are shown as `0`. -/
def realloc (ok : Bool) (p : Option (List Int)) (bytes : Nat) : Option (List Int) :=
  if ok = true ∧ bytes ≠ 0 then
    let old := p.getD []
    let n := bytes / SIZEOF_INT
    some (old.take n ++ List.replicate (n - old.length) 0)
  else
    none

/-- The statement `d->data[d->size++] = v; return 1;`.  A store through
`NULL` or past the end of the block is undefined behaviour (`none`). -/
def store_back (d : Dyn) (v : Int) : Option (Int × Dyn) :=
  match d.data with
  | none => none
  | some xs =>
    if d.size < xs.length then
      some (1, { d with data := some (xs.set d.size v), size := (d.size + 1) % SIZE_MOD })
    else
      none

/-- Source: `push_back` of `src/ch09/p19.c`.
```
if (d->size == d->cap) {
    size_t nc = d->cap ? d->cap * 2 : 1;
    int *nd = realloc(d->data, nc * sizeof *nd);
    if (!nd) return 0;
    d->data = nd; d->cap = nc;
}
d->data[d->size++] = v; return 1;
```
The first component of the result is the returned `int`. -/
def push_back (ok : Bool) (d : Dyn) (v : Int) : Option (Int × Dyn) :=
  if d.size = d.cap then
    let nc := if d.cap ≠ 0 then d.cap * 2 % SIZE_MOD else 1
    match realloc ok d.data (nc * SIZEOF_INT % SIZE_MOD) with
    | none => some (0, d)
    | some nd => store_back { d with data := some nd, cap := nc } v
  else
    store_back d v

/-- Source: `pop_back` of `src/ch09/p19.c`.
```
if (d->size == 0) return 0;
*out = d->data[--d->size];
return 1;
```
The caller's `*out` is passed in and handed back as the third component,
so that a call which does not write it returns it untouched. -/
def pop_back (d : Dyn) (out : Int) : Option (Int × Dyn × Int) :=
  if d.size = 0 then
    some (0, d, out)
  else
    match d.data with
    | none => none
    | some xs =>
      match xs[d.size - 1]? with
      | none => none
      | some x => some (1, { d with size := d.size - 1 }, x)

/-- Source: `void destroy(Dyn *d) { free(d->data); d->data = NULL; d->size = d->cap = 0; }`. -/
def destroy (_d : Dyn) : Dyn :=
  { data := none, size := 0, cap := 0 }

/-- The loop `for (...) push_back(&d, v);` over the values `vs`, run with an
allocator that grants what it is asked: the returned `int` of each call,
and the final buffer. -/
def push_seq : Dyn → List Int → Option (List Int × Dyn)
  | d, [] => some ([], d)
  | d, v :: vs =>
    match push_back true d v with
    | none => none
    | some (r, d1) =>
      match push_seq d1 vs with
      | none => none
      | some (rs, d2) => some (r :: rs, d2)

/-- The byte count `nc * sizeof *nd` that `push_back` passes to `realloc`
when the buffer `d` is full. -/
def grow_request (d : Dyn) : Nat :=
  (if d.cap ≠ 0 then d.cap * 2 % SIZE_MOD else 1) * SIZEOF_INT % SIZE_MOD

/-- Whether every `realloc` call made while the values `vs` are pushed one
after the other returns a block, the allocator granting what it is asked:
a push onto a full buffer makes one call, a push onto a buffer with a free
slot makes none. -/
def reallocs_succeed : Dyn → List Int → Bool
  | _, [] => true
  | d, v :: vs =>
    (if d.size = d.cap then (realloc true d.data (grow_request d)).isSome else true) &&
      match push_back true d v with
      | none => true
      | some (_, d1) => reallocs_succeed d1 vs

/-- Calling `pop_back(&d, &x)` exactly `n` times: for each call the returned
`int` paired with the value of `x` after the call, then the final buffer
and the final `x`. -/
def pop_seq : Nat → Dyn → Int → Option (List (Int × Int) × Dyn × Int)
  | 0, d, out => some ([], d, out)
  | n + 1, d, out =>
    match pop_back d out with
    | none => none
    | some (r, d1, out1) =>
      match pop_seq n d1 out1 with
      | none => none
      | some (rs, d2, out2) => some ((r, out1) :: rs, d2, out2)

/-- Pushing all of `vs` and then popping `vs.length` times. -/
def push_then_pop (d : Dyn) (vs : List Int) (out : Int) :
    Option (List Int × List (Int × Int) × Dyn × Int) :=
  match push_seq d vs with
  | none => none
  | some (rs, d1) =>
    match pop_seq vs.length d1 out with
    | none => none
    | some (ps, d2, out2) => some (rs, ps, d2, out2)

/-- Number of slots of the block `data` points to (`0` for `NULL`). -/
def Dyn.slots (d : Dyn) : Nat :=
  match d.data with
  | none => 0
  | some xs => xs.length

/-- The logical contents: the values at indices `0 .. size - 1`. -/
def Dyn.contents (d : Dyn) : List Int :=
  (d.data.getD []).take d.size

/-- What the C types and the allocator guarantee of a buffer: `data` points
to a block of exactly `cap` slots, and `size` and `cap` are `size_t` values. -/
def Dyn.wf (d : Dyn) : Prop :=
  d.slots = d.cap ∧ d.cap < SIZE_MOD ∧ d.size < SIZE_MOD

instance (d : Dyn) : Decidable d.wf := by
  unfold Dyn.wf; infer_instance

/-- What holds of every buffer the calls can produce: it is well-formed,
`size <= cap`, and `cap` is 0 or a power of two. -/
def StateInv (d : Dyn) : Prop :=
  d.wf ∧ d.size ≤ d.cap ∧ (d.cap = 0 ∨ ∃ k, d.cap = 2 ^ k)

/-- One call made on the buffer: `push_back(&d, v)`, with `ok` the outcome
of `realloc` should the call ask for it, or `pop_back(&d, &x)`. -/
inductive Op where
  | push (ok : Bool) (v : Int)
  | pop
  deriving DecidableEq, Repr

/-- The buffer after one call, or `none` when the call has undefined
behaviour.  A `push_back` that returns 0 is a step as well. -/
def step (d : Dyn) : Op → Option Dyn
  | Op.push ok v =>
    match push_back ok d v with
    | none => none
    | some (_, d1) => some d1
  | Op.pop =>
    match pop_back d 0 with
    | none => none
    | some (_, d1, _) => some d1

/-- The buffer after a finite sequence of calls, made one after the other. -/
def run : Dyn → List Op → Option Dyn
  | d, [] => some d
  | d, op :: ops =>
    match step d op with
    | none => none
    | some d1 => run d1 ops

/-- The capacity reached after `n` pushes from empty: `0` for `n = 0`, and
otherwise the power of two `c` with `n ≤ c < 2 * n`. -/
def CapInv (n c : Nat) : Prop :=
  (n = 0 ∧ c = 0) ∨ ∃ k, c = 2 ^ k ∧ n ≤ c ∧ c < 2 * n

end Ch09P19

namespace Ch08

/-- The record `typedef struct { char name[50]; char phone[20]; int age; } Contact;`.
`name` and `phone` are the C strings held in the two arrays: the characters
before the terminating NUL. -/
structure Contact where
  name : List Char
  phone : List Char
  age : Int
  deriving DecidableEq, Repr, Inhabited

/-- The C string held in a character array: the characters before the
first NUL. -/
def cstr (cs : List Char) : List Char :=
  cs.takeWhile (fun c => c ≠ Char.ofNat 0)

/-- The library predicate `isspace` in the "C" locale. -/
def isspace (c : Char) : Bool :=
  c = ' ' || c = '\t' || c = '\n' || c = Char.ofNat 11 || c = Char.ofNat 12 || c = '\r'

/-- The library predicate `isdigit`. -/
def isdigit (c : Char) : Bool :=
  48 ≤ c.toNat && c.toNat ≤ 57

/-- Loop of `find_contact` from index `i`: `fuel` bounds the iterations
left, which `n - i` never exceeds. -/
def find_loop (a : List Contact) (n : Int) (name : List Char) : Nat → Int → Int
  | 0, _ => -1
  | fuel + 1, i =>
    if i < n then
      if (a.getD i.toNat default).name = name then i
      else find_loop a n name fuel (i + 1)
    else -1

/-- Source: `find_contact` of `src/ch08/p19.c` (the same text as in
`archive/v1/src/ch08/p18.c`).
```
for (int i = 0; i < n; i++)
    if (strcmp(a[i].name, name) == 0) return i;
return -1;
```
`strcmp(..) == 0` is equality of the two C strings. -/
def find_contact (a : List Contact) (n : Int) (name : List Char) : Int :=
  find_loop a n name n.toNat 0

/-- Loop `for (int i = idx; i < *n - 1; i++) a[i] = a[i+1];` from index `i`. -/
def shift_loop (n : Int) : Nat → Int → List Contact → List Contact
  | 0, _, a => a
  | fuel + 1, i, a =>
    if i < n - 1 then
      shift_loop n fuel (i + 1) (a.set i.toNat (a.getD (i + 1).toNat default))
    else a

/-- Source: `delete_contact` of `src/ch08/p19.c`.
```
int idx = find_contact(a, *n, name);
if (idx < 0) return;
for (int i = idx; i < *n - 1; i++) a[i] = a[i+1];
(*n)--;
```
The result is the array and the value of `*n` after the call. -/
def delete_contact (a : List Contact) (n : Int) (name : List Char) : List Contact × Int :=
  let idx := find_contact a n name
  if idx < 0 then (a, n)
  else (shift_loop n (n - 1 - idx).toNat idx a, n - 1)

/-- Decimal digits of `n`, most significant first, put in front of `acc`. -/
def fmt_nat_aux : Nat → Nat → List Char → List Char
  | 0, _, acc => acc
  | fuel + 1, n, acc =>
    if n / 10 = 0 then Char.ofNat (48 + n % 10) :: acc
    else fmt_nat_aux fuel (n / 10) (Char.ofNat (48 + n % 10) :: acc)

/-- Decimal representation of a natural number, without leading zeros. -/
def fmt_nat (n : Nat) : List Char :=
  fmt_nat_aux (n + 1) n []

/-- What `%d` of `fprintf` prints for an `int`. -/
def fmt_int (i : Int) : List Char :=
  if i < 0 then '-' :: fmt_nat (-i).toNat else fmt_nat i.toNat

/-- What `fprintf(f, "%s;%s;%d\n", c.name, c.phone, c.age)` writes. -/
def fprintf_contact (c : Contact) : List Char :=
  c.name ++ ';' :: (c.phone ++ ';' :: (fmt_int c.age ++ ['\n']))

/-- Loop `for (int i = 0; i < n; i++) fprintf(...)` from index `i`, after
`out` has been written. -/
def save_loop (a : List Contact) (n : Int) : Nat → Int → List Char → List Char
  | 0, _, out => out
  | fuel + 1, i, out =>
    if i < n then save_loop a n fuel (i + 1) (out ++ fprintf_contact (a.getD i.toNat default))
    else out

/-- Source: `save_contacts` of `archive/v1/src/ch08/p20.c`.
```
FILE *f = fopen(path, "w");
if (!f) return;
for (int i = 0; i < n; i++)
    fprintf(f, "%s;%s;%d\n", a[i].name, a[i].phone, a[i].age);
fclose(f);
```
`opened` is the outcome of `fopen`; the result is the new content of the
file, or `none` when nothing is written. -/
def save_contacts (opened : Bool) (a : List Contact) (n : Int) : Option (List Char) :=
  if opened then some (save_loop a n n.toNat 0 []) else none

/-- The white-space directive of a `scanf` format: input is read up to the
first character that is not white space. -/
def skip_ws : List Char → List Char
  | [] => []
  | c :: cs => if isspace c then skip_ws cs else c :: cs

/-- The conversion `%w[^;]`: the longest prefix of at most `w` characters
none of which is `;`, and the input left after it. -/
def scan_set : Nat → List Char → List Char × List Char
  | 0, cs => ([], cs)
  | _ + 1, [] => ([], [])
  | w + 1, c :: cs =>
    if c = ';' then ([], c :: cs)
    else ((scan_set w cs).1.cons c, (scan_set w cs).2)

/-- The run of decimal digits at the head of the input, folded into `acc`. -/
def scan_digits : Nat → List Char → Nat × List Char
  | acc, [] => (acc, [])
  | acc, c :: cs =>
    if isdigit c then scan_digits (acc * 10 + (c.toNat - 48)) cs else (acc, c :: cs)

/-- The value `scan_digits` reaches from `acc` after reading all of `ds`. -/
def digits_value (acc : Nat) (ds : List Char) : Nat :=
  ds.foldl (fun a c => a * 10 + (c.toNat - 48)) acc

/-- The digits of an unsigned decimal number, which must start the input. -/
def scan_unsigned : List Char → Option Nat × List Char
  | [] => (none, [])
  | c :: cs =>
    if isdigit c then ((scan_digits 0 (c :: cs)).1, (scan_digits 0 (c :: cs)).2)
    else (none, c :: cs)

/-- The conversion `%d`: white space is skipped, then an optional sign and a
non-empty run of digits are read.  The first component is `none` on a
matching or input failure.  For a digit string whose value is outside the
range of `int` the C standard leaves the stored value undefined; the model
keeps the mathematical value. -/
def scan_int (cs : List Char) : Option Int × List Char :=
  match skip_ws cs with
  | [] => (none, [])
  | c :: r =>
    if c = '-' then
      match scan_unsigned r with
      | (some v, r1) => (some (-(v : Int)), r1)
      | (none, r1) => (none, r1)
    else if c = '+' then
      match scan_unsigned r with
      | (some v, r1) => (some (v : Int), r1)
      | (none, r1) => (none, r1)
    else
      match scan_unsigned (c :: r) with
      | (some v, r1) => (some (v : Int), r1)
      | (none, r1) => (none, r1)

/-- The value of the macro `EOF`. -/
def EOF : Int := -1

/-- The call `fscanf(f, " %49[^;];%19[^;];%d", e.name, e.phone, &e.age)` on
the input `cs`, `e` being the array entry the three pointers lead into: the
returned `int`, the input left, and the entry afterwards.  A conversion
that succeeds stores its field at once, so a call that fails later leaves
the earlier fields written. -/
def fscanf_contact (cs : List Char) (e : Contact) : Int × List Char × Contact :=
  let s0 := skip_ws cs
  match scan_set 49 s0 with
  | ([], r) => (if s0 = [] then EOF else 0, r, e)
  | (c1 :: nm, r1) =>
    let e1 := { e with name := cstr (c1 :: nm) }
    match r1 with
    | [] => (1, [], e1)
    | d1 :: r2 =>
      if d1 = ';' then
        match scan_set 19 r2 with
        | ([], r) => (1, r, e1)
        | (c2 :: ph, r3) =>
          let e2 := { e1 with phone := cstr (c2 :: ph) }
          match r3 with
          | [] => (2, [], e2)
          | d2 :: r4 =>
            if d2 = ';' then
              match scan_int r4 with
              | (some v, r5) => (3, r5, { e2 with age := v })
              | (none, r5) => (2, r5, e2)
            else (2, d2 :: r4, e2)
      else (1, d1 :: r2, e1)

/-- The call `fgetc(f)`: the character read, if any, and the input left. -/
def fgetc : List Char → Option Char × List Char
  | [] => (none, [])
  | c :: cs => (some c, cs)

/-- Loop of `load_contacts` with `n` records loaded so far: `fuel` bounds
the iterations left, which `maxn - n` never exceeds. -/
def load_loop (maxn : Int) : Nat → List Char → List Contact → Int → Int × List Contact
  | 0, _, a, n => (n, a)
  | fuel + 1, f, a, n =>
    if n < maxn then
      match fscanf_contact f (a.getD n.toNat default) with
      | (ret, rest, e) =>
        if ret = 3 then load_loop maxn fuel (fgetc rest).2 (a.set n.toNat e) (n + 1)
        else (n, a.set n.toNat e)
    else (n, a)

/-- Source: `load_contacts` of `archive/v1/src/ch08/p20.c`.
```
FILE *f = fopen(path, "r");
if (!f) return 0;
int n = 0;
while (n < maxn &&
       fscanf(f, " %49[^;];%19[^;];%d", a[n].name, a[n].phone, &a[n].age) == 3) {
    n++;
    int ch = fgetc(f); (void)ch; // consume newline if present
}
fclose(f);
return n;
```
`file` is the content of the file, or `none` when `fopen` fails; the result
is the returned count and the array `a` after the call. -/
def load_contacts (file : Option (List Char)) (a : List Contact) (maxn : Int) :
    Int × List Contact :=
  match file with
  | none => (0, a)
  | some f => load_loop maxn maxn.toNat f a 0

/-- The line of one contact in the words of the file format: the name, `;`,
the phone, `;`, the decimal representation of the age as the library
prints an integer, and one newline.  Theorems compare `fprintf_contact`
with it. -/
def record_line (c : Contact) : List Char :=
  c.name ++ [';'] ++ c.phone ++ [';'] ++ (toString c.age).toList ++ ['\n']

/-- The value of `MAXC` in `archive/v1/src/ch08/p17.c`. -/
def MAXC : Int := 10

/-- What `snprintf(buf, size, "%s", s)` leaves in `buf` as a C string: the
first `size - 1` characters of `s`, the last byte being kept for the NUL. -/
def snprintf_s (size : Nat) (s : List Char) : List Char :=
  s.take (size - 1)

/-- Source: `add_contact` of `archive/v1/src/ch08/p17.c`.
```
if (*n >= MAXC) return;
snprintf(a[*n].name,  sizeof(a[*n].name),  "%s", name);
snprintf(a[*n].phone, sizeof(a[*n].phone), "%s", phone);
a[*n].age = age;
(*n)++;
```
The sizes are those of `char name[50]` and `char phone[20]`.  The result is
the array and the value of `*n` after the call. -/
def add_contact (a : List Contact) (n : Int) (name phone : List Char) (age : Int) :
    List Contact × Int :=
  if n ≥ MAXC then (a, n)
  else
    let e0 := a.getD n.toNat default
    let e1 := { e0 with name := snprintf_s 50 name }
    let e2 := { e1 with phone := snprintf_s 20 phone }
    let e3 := { e2 with age := age }
    (a.set n.toNat e3, n + 1)

/-- A contact that `load_contacts` reads back from its saved line: both
text fields are non-empty, free of `;` and of NUL, within the bounds 49 and
19, and the name does not begin with white space. -/
def Contact.loadable (c : Contact) : Prop :=
  c.name ≠ [] ∧ c.phone ≠ [] ∧
  c.name.length ≤ 49 ∧ c.phone.length ≤ 19 ∧
  (∀ x ∈ c.name, x ≠ ';' ∧ x ≠ Char.ofNat 0) ∧
  (∀ x ∈ c.phone, x ≠ ';' ∧ x ≠ Char.ofNat 0) ∧
  (∀ x ∈ c.name.head?, isspace x = false)

instance (c : Contact) : Decidable c.loadable := by
  unfold Contact.loadable; infer_instance

/-- The array `book` of `main` in `src/ch08/p19.c`: three contacts, the
remaining `MAXC - 3 = 7` entries zero-initialised. -/
def book : List Contact :=
  [ { name := "Alice".toList, phone := "123-4567".toList, age := 20 },
    { name := "Bob".toList, phone := "555-9876".toList, age := 25 },
    { name := "Cara".toList, phone := "777-0000".toList, age := 30 } ] ++
  List.replicate 7 { name := [], phone := [], age := 0 }

end Ch08

namespace Ch12P25

/-- Number of values of `size_t`; arithmetic on `size_t` wraps modulo it. -/
def SIZE_MOD : Nat := 2 ^ 64

/-- The library predicate `isalnum` in the "C" locale. -/
def isalnum (c : Char) : Bool :=
  (48 ≤ c.toNat && c.toNat ≤ 57) || (65 ≤ c.toNat && c.toNat ≤ 90) ||
    (97 ≤ c.toNat && c.toNat ≤ 122)

/-- The library function `tolower` in the "C" locale. -/
def tolower (c : Char) : Char :=
  if 65 ≤ c.toNat && c.toNat ≤ 90 then Char.ofNat (c.toNat + 32) else c

/-- The read `s[i]` of a string whose characters are `s`: the array holds
`s` and the terminating NUL at index `strlen(s)`; a read past it is outside
the array (`none`). -/
def read (s : List Char) (i : Nat) : Option Char :=
  if i < s.length then s[i]?
  else if i = s.length then some (Char.ofNat 0)
  else none

/-- How a call ends: it returns `v`; or it reads outside the array, `i` and
`j` being the two indices at that moment; or the model ran out of fuel. -/
inductive Outcome where
  | ret (v : Int)
  | oob (i j : Nat)
  | no_fuel
  deriving DecidableEq, Repr

/-- Loop `while (i<j && !isalnum((unsigned char)s[i])) i++;`: the value of
`i` after it. -/
def skip_left (s : List Char) (j : Nat) : Nat → Nat → Except Outcome Nat
  | 0, _ => Except.error Outcome.no_fuel
  | fuel + 1, i =>
    if i < j then
      match read s i with
      | none => Except.error (Outcome.oob i j)
      | some c =>
        if !isalnum c then skip_left s j fuel ((i + 1) % SIZE_MOD) else Except.ok i
    else Except.ok i

/-- Loop `while (i<j && !isalnum((unsigned char)s[j])) j--;`: the value of
`j` after it. -/
def skip_right (s : List Char) (i : Nat) : Nat → Nat → Except Outcome Nat
  | 0, _ => Except.error Outcome.no_fuel
  | fuel + 1, j =>
    if i < j then
      match read s j with
      | none => Except.error (Outcome.oob i j)
      | some c =>
        if !isalnum c then skip_right s i fuel ((j + SIZE_MOD - 1) % SIZE_MOD) else Except.ok j
    else Except.ok j

/-- Loop `while (i<j) { ... }` of `is_palindrome` and the `return 1` after it. -/
def pal_loop (s : List Char) : Nat → Nat → Nat → Outcome
  | 0, _, _ => Outcome.no_fuel
  | fuel + 1, i, j =>
    if i < j then
      match skip_left s j (s.length + 2) i with
      | Except.error o => o
      | Except.ok i1 =>
        match skip_right s i1 (s.length + 2) j with
        | Except.error o => o
        | Except.ok j1 =>
          match read s i1, read s j1 with
          | some x, some y =>
            if tolower x ≠ tolower y then Outcome.ret 0
            else pal_loop s fuel ((i1 + 1) % SIZE_MOD) ((j1 + SIZE_MOD - 1) % SIZE_MOD)
          | _, _ => Outcome.oob i1 j1
    else Outcome.ret 1

/-- Source: `is_palindrome` of `src/ch12/p25.c`.
```
size_t i=0, j=strlen(s);
if (j==0) return 1;
j--;
while (i<j){
    while (i<j && !isalnum((unsigned char)s[i])) i++;
    while (i<j && !isalnum((unsigned char)s[j])) j--;
    if (tolower((unsigned char)s[i]) != tolower((unsigned char)s[j])) return 0;
    i++; j--;
}
return 1;
```
`s` holds the characters before the NUL, so `strlen(s)` is `s.length`.
Each loop gets the fuel `s.length + 2`: an index that stays inside the
array takes at most `s.length + 1` values. -/
def is_palindrome (s : List Char) : Outcome :=
  if s.length = 0 then Outcome.ret 1
  else pal_loop s (s.length + 2) 0 (s.length - 1)

end Ch12P25

/-! ## Theorems: the growable buffer -/

namespace Ch09P19

theorem contents_of_some (xs : List Int) (n c : Nat) :
    Dyn.contents { data := some xs, size := n, cap := c } = xs.take n := rfl

/-- One successful store at the back: the block keeps its length, `size`
grows by one and the logical contents gain `v` at the end. -/
theorem store_back_spec (d : Dyn) (v : Int) (hslots : d.size < d.slots)
    (hsz : d.size + 1 < SIZE_MOD) :
    ∃ d1, store_back d v = some (1, d1) ∧ d1.slots = d.slots ∧ d1.cap = d.cap ∧
      d1.size = d.size + 1 ∧ d1.contents = d.contents ++ [v] := by
  obtain ⟨data, size, cap⟩ := d
  cases data with
  | none => simp [Dyn.slots] at hslots
  | some xs =>
    simp only [Dyn.slots] at hslots hsz ⊢
    refine ⟨{ data := some (xs.set size v), size := size + 1, cap := cap }, ?_, ?_, rfl, rfl, ?_⟩
    · simp only [store_back, if_pos hslots, Nat.mod_eq_of_lt hsz]
    · simp
    · simp only [Dyn.contents, Option.getD_some]
      rw [List.take_succ, List.set_take, List.set_eq_of_length_le (by simp),
        List.getElem?_set_self hslots]
      rfl

theorem grow_length (old : List Int) (n : Nat) :
    (old.take n ++ List.replicate (n - old.length) 0).length = n := by
  simp only [List.length_append, List.length_take, List.length_replicate]
  omega

theorem grow_take (old : List Int) (n k : Nat) (hk : k ≤ old.length) (hkn : k ≤ n) :
    (old.take n ++ List.replicate (n - old.length) 0).take k = old.take k := by
  rw [List.take_append_of_le_length (by simp only [List.length_take]; omega), List.take_take,
    min_eq_left hkn]

theorem realloc_granted (p : Option (List Int)) (bytes : Nat) (hb : bytes ≠ 0) :
    realloc true p bytes =
      some ((p.getD []).take (bytes / SIZEOF_INT) ++
        List.replicate (bytes / SIZEOF_INT - (p.getD []).length) 0) := by
  unfold realloc
  exact if_pos ⟨rfl, hb⟩

theorem realloc_refused (ok : Bool) (p : Option (List Int)) (bytes : Nat)
    (h : ok = false ∨ bytes = 0) : realloc ok p bytes = none := by
  unfold realloc
  apply if_neg
  rintro ⟨h1, h2⟩
  rcases h with h | h
  · rw [h] at h1; exact Bool.false_ne_true h1
  · exact h2 h

/-- The growth branch of `push_back` with a succeeding `realloc`, spelled out. -/
theorem push_back_full_true (d : Dyn) (v : Int) (h : d.size = d.cap)
    (hb : grow_request d ≠ 0) :
    push_back true d v =
      store_back
        { data := some ((d.data.getD []).take
              ((if d.cap ≠ 0 then d.cap * 2 % SIZE_MOD else 1) * SIZEOF_INT % SIZE_MOD / SIZEOF_INT) ++
            List.replicate
              ((if d.cap ≠ 0 then d.cap * 2 % SIZE_MOD else 1) * SIZEOF_INT % SIZE_MOD / SIZEOF_INT -
                (d.data.getD []).length) 0),
          size := d.size,
          cap := if d.cap ≠ 0 then d.cap * 2 % SIZE_MOD else 1 } v := by
  have hb2 : (if d.cap ≠ 0 then d.cap * 2 % SIZE_MOD else 1) * SIZEOF_INT % SIZE_MOD ≠ 0 := hb
  simp only [push_back, if_pos h, realloc_granted d.data _ hb2]

/-- A full buffer whose byte count has wrapped to 0: `realloc` returns
`NULL` and `push_back` returns 0 with the buffer as it was. -/
theorem push_back_zero_request (ok : Bool) (d : Dyn) (v : Int) (h : d.size = d.cap)
    (hb : grow_request d = 0) :
    push_back ok d v = some (0, d) := by
  have hb2 : (if d.cap ≠ 0 then d.cap * 2 % SIZE_MOD else 1) * SIZEOF_INT % SIZE_MOD = 0 := hb
  simp only [push_back, if_pos h, realloc_refused ok d.data _ (Or.inr hb2)]

/-- A full buffer and an allocator that refuses: `push_back` returns 0 with
the buffer as it was. -/
theorem push_back_refused (d : Dyn) (v : Int) (h : d.size = d.cap) :
    push_back false d v = some (0, d) := by
  simp only [push_back, if_pos h, realloc_refused false d.data _ (Or.inl rfl)]

theorem slots_eq_length (d : Dyn) : d.slots = (d.data.getD []).length := by
  obtain ⟨data, size, cap⟩ := d
  cases data <;> rfl

/-- Progress and effect of one `push_back` with a succeeding `realloc`, as
long as doubling the capacity stays clear of the `size_t` range. -/
theorem push_back_true_spec (d : Dyn) (v : Int) (hwf : d.wf) (hle : d.size ≤ d.cap)
    (hb : d.size < 2 ^ 61) :
    ∃ d1, push_back true d v = some (1, d1) ∧ d1.wf ∧ d1.size = d.size + 1 ∧
      d1.contents = d.contents ++ [v] ∧
      d1.cap = (if d.size = d.cap then max 1 (2 * d.cap) else d.cap) := by
  obtain ⟨hs, hc, hz⟩ := hwf
  simp only [SIZE_MOD] at hc hz
  norm_num at hb hc hz
  by_cases heq : d.size = d.cap
  · have hreq : grow_request d ≠ 0 := by
      simp only [grow_request, SIZE_MOD, SIZEOF_INT]
      split_ifs with h0 <;> omega
    rw [push_back_full_true d v heq hreq]
    have hlen := slots_eq_length d
    set old := d.data.getD [] with hold
    set nc := (if d.cap ≠ 0 then d.cap * 2 % SIZE_MOD else 1) with hnc
    have hnc2 : nc = max 1 (2 * d.cap) := by
      simp only [hnc, SIZE_MOD]
      split_ifs with h0 <;> omega
    have hn : nc * SIZEOF_INT % SIZE_MOD / SIZEOF_INT = nc := by
      simp only [SIZEOF_INT, SIZE_MOD]
      omega
    rw [hn]
    obtain ⟨d1, h1, h2, h3, h4, h5⟩ := store_back_spec
      { data := some (old.take nc ++ List.replicate (nc - old.length) 0), size := d.size, cap := nc } v
      (by simp only [Dyn.slots, grow_length]; omega)
      (by simp only [SIZE_MOD]; omega)
    refine ⟨d1, h1, ⟨?_, ?_, ?_⟩, h4, ?_, ?_⟩
    · rw [h2, h3]; simp only [Dyn.slots, grow_length]
    · rw [h3]; simp only [SIZE_MOD]; omega
    · rw [h4]; simp only [SIZE_MOD]; omega
    · rw [h5, contents_of_some, grow_take old nc d.size (by omega) (by omega)]
      rfl
    · rw [h3, if_pos heq]; exact hnc2
  · obtain ⟨d1, h1, h2, h3, h4, h5⟩ := store_back_spec d v (by omega)
      (by simp only [SIZE_MOD]; omega)
    refine ⟨d1, by simp only [push_back, if_neg heq]; exact h1, ⟨?_, ?_, ?_⟩, h4, h5, ?_⟩
    · rw [h2, h3]; exact hs
    · rw [h3]; simp only [SIZE_MOD]; omega
    · rw [h4]; simp only [SIZE_MOD]; omega
    · rw [h3, if_neg heq]

theorem CapInv.le {n c : Nat} (h : CapInv n c) : n ≤ c := by
  rcases h with ⟨h1, _⟩ | ⟨_, _, h2, _⟩ <;> omega

theorem CapInv.step {n c : Nat} (h : CapInv n c) :
    CapInv (n + 1) (if n = c then max 1 (2 * c) else c) := by
  rcases h with ⟨h1, h2⟩ | ⟨k, hk, h1, h2⟩
  · subst h1 h2
    exact Or.inr ⟨0, by simp, by simp, by simp⟩
  · right
    by_cases heq : n = c
    · refine ⟨k + 1, ?_, ?_, ?_⟩
      · rw [if_pos heq, pow_succ, ← hk]; omega
      · rw [if_pos heq]; omega
      · rw [if_pos heq]; omega
    · exact ⟨k, by rw [if_neg heq]; exact hk, by rw [if_neg heq]; omega,
        by rw [if_neg heq]; omega⟩

/-- A capacity satisfying `CapInv` is the least power of two at or above `n`. -/
theorem CapInv.least {n c : Nat} (h : CapInv n c) (hn : 0 < n) :
    ∃ k, c = 2 ^ k ∧ n ≤ c ∧ ∀ j, n ≤ 2 ^ j → c ≤ 2 ^ j := by
  rcases h with ⟨h1, _⟩ | ⟨k, hk, h1, h2⟩
  · omega
  · refine ⟨k, hk, h1, fun j hj => ?_⟩
    have h3 : 2 ^ k < 2 ^ (j + 1) := by rw [pow_succ]; omega
    have h4 : k < j + 1 := (Nat.pow_lt_pow_iff_right (by norm_num)).mp h3
    rw [hk]
    exact Nat.pow_le_pow_right (by norm_num) (by omega)

/-- Pushing `xs` with succeeding reallocations onto a buffer that satisfies
the capacity invariant, while the final size stays at most `2 ^ 61`. -/
theorem push_seq_spec (xs : List Int) :
    ∀ d : Dyn, d.wf → CapInv d.size d.cap → d.size + xs.length ≤ 2 ^ 61 →
      ∃ d1, push_seq d xs = some (List.replicate xs.length 1, d1) ∧ d1.wf ∧
        d1.size = d.size + xs.length ∧ d1.contents = d.contents ++ xs ∧
        CapInv d1.size d1.cap := by
  induction xs with
  | nil =>
    intro d hwf hinv _
    exact ⟨d, rfl, hwf, rfl, by simp, hinv⟩
  | cons v vs ih =>
    intro d hwf hinv hb
    simp only [List.length_cons] at hb
    obtain ⟨d1, h1, hwf1, hs1, hc1, hcap1⟩ :=
      push_back_true_spec d v hwf hinv.le (by omega)
    have hinv1 : CapInv d1.size d1.cap := by
      rw [hs1, hcap1]; exact hinv.step
    obtain ⟨d2, h2, hwf2, hs2, hc2, hinv2⟩ := ih d1 hwf1 hinv1 (by rw [hs1]; omega)
    refine ⟨d2, ?_, hwf2, ?_, ?_, hinv2⟩
    · simp only [push_seq, h1, h2, List.length_cons, List.replicate_succ]
    · rw [hs2, hs1, List.length_cons]; omega
    · rw [hc2, hc1, List.append_assoc]; rfl

theorem push_seq_append (xs ys : List Int) :
    ∀ d : Dyn, push_seq d (xs ++ ys) =
      match push_seq d xs with
      | none => none
      | some (rs, d1) =>
        match push_seq d1 ys with
        | none => none
        | some (rs2, d2) => some (rs ++ rs2, d2) := by
  induction xs with
  | nil =>
    intro d
    simp only [List.nil_append, push_seq]
    cases push_seq d ys with
    | none => rfl
    | some p => rfl
  | cons v vs ih =>
    intro d
    rw [List.cons_append]
    simp only [push_seq]
    cases push_back true d v with
    | none => rfl
    | some p =>
      obtain ⟨r, d1⟩ := p
      simp only [ih d1]
      cases push_seq d1 vs with
      | none => rfl
      | some q =>
        obtain ⟨rs, d2⟩ := q
        simp only
        cases push_seq d2 ys with
        | none => rfl
        | some q2 => rfl

theorem init_wf (d0 : Dyn) : (init d0).wf := by
  simp [init, Dyn.wf, Dyn.slots, SIZE_MOD]

theorem init_capInv (d0 : Dyn) : CapInv (init d0).size (init d0).cap :=
  Or.inl ⟨rfl, rfl⟩

/-- The push that would take the buffer past `2 ^ 61` elements: the byte
count `nc * sizeof *nd` wraps to `0`, `realloc` returns `NULL`, and the call
returns 0 with the buffer as it was. -/
theorem push_back_at_limit (ok : Bool) (d : Dyn) (v : Int) (hs : d.size = 2 ^ 61)
    (hc : d.cap = 2 ^ 61) :
    push_back ok d v = some (0, d) := by
  apply push_back_zero_request ok d v (by rw [hs, hc])
  simp only [grow_request]
  rw [hc]
  norm_num [SIZE_MOD, SIZEOF_INT]

theorem store_back_defined (d : Dyn) (v : Int) (r : Int × Dyn)
    (h : store_back d v = some r) : d.size < d.slots := by
  obtain ⟨data, size, cap⟩ := d
  cases data with
  | none => simp [store_back] at h
  | some xs =>
    simp only [Dyn.slots]
    by_contra hlt
    simp [store_back, hlt] at h

/-- Popping `n` times from a buffer whose block holds at least `n` values. -/
theorem pop_seq_spec (blk : List Int) (c : Nat) :
    ∀ (n : Nat) (out : Int), n ≤ blk.length →
      ∃ out2, pop_seq n { data := some blk, size := n, cap := c } out =
        some (((blk.take n).reverse).map (fun x => ((1 : Int), x)),
          { data := some blk, size := 0, cap := c }, out2) := by
  intro n
  induction n with
  | zero =>
    intro out _
    exact ⟨out, rfl⟩
  | succ n ih =>
    intro out hn
    have hlt : n < blk.length := by omega
    obtain ⟨out2, h2⟩ := ih blk[n] (by omega)
    refine ⟨out2, ?_⟩
    have hp : pop_back { data := some blk, size := n + 1, cap := c } out =
        some (1, { data := some blk, size := n, cap := c }, blk[n]) := by
      simp [pop_back, List.getElem?_eq_getElem hlt]
    simp only [pop_seq, hp, h2, List.take_succ, List.getElem?_eq_getElem hlt,
      Option.toList_some, List.reverse_append, List.reverse_cons, List.reverse_nil,
      List.nil_append, List.singleton_append, List.map_cons]

/-- Popping `size` times from a well-formed buffer returns its logical
contents back to front and leaves every field but `size` as it was. -/
theorem pop_seq_contents (d : Dyn) (out : Int) (hwf : d.wf) (hle : d.size ≤ d.cap) :
    ∃ out2, pop_seq d.size d out =
      some ((d.contents.reverse).map (fun x => ((1 : Int), x)), { d with size := 0 }, out2) := by
  obtain ⟨data, size, cap⟩ := d
  obtain ⟨hs, -, -⟩ := hwf
  cases data with
  | none =>
    simp only [Dyn.slots] at hs hle
    have h0 : size = 0 := by omega
    subst h0
    exact ⟨out, rfl⟩
  | some blk =>
    simp only [Dyn.slots] at hs hle
    exact pop_seq_spec blk cap size out (by omega)

/-- Pushing `xs` onto a buffer that satisfies the capacity invariant, when
every `realloc` call of the run returns a block: every call returns 1 and
the invariant is kept. -/
theorem push_seq_granted (xs : List Int) :
    ∀ d : Dyn, d.wf → CapInv d.size d.cap → d.cap ≤ 2 ^ 61 → reallocs_succeed d xs = true →
      ∃ d1, push_seq d xs = some (List.replicate xs.length 1, d1) ∧ d1.wf ∧
        d1.size = d.size + xs.length ∧ d1.contents = d.contents ++ xs ∧
        CapInv d1.size d1.cap := by
  induction xs with
  | nil =>
    intro d hwf hinv _ _
    exact ⟨d, rfl, hwf, rfl, by simp, hinv⟩
  | cons v vs ih =>
    intro d hwf hinv hcap hgr
    simp only [reallocs_succeed, Bool.and_eq_true] at hgr
    obtain ⟨hA, hB⟩ := hgr
    have hfull : d.size = d.cap → d.cap < 2 ^ 61 := by
      intro heq
      rw [if_pos heq] at hA
      have hreq : grow_request d ≠ 0 := by
        intro h0
        rw [realloc_refused true d.data _ (Or.inr h0)] at hA
        exact Bool.false_ne_true hA
      have hne : d.cap ≠ 2 ^ 61 := by
        intro hc
        apply hreq
        simp only [grow_request]
        rw [hc]
        norm_num [SIZE_MOD, SIZEOF_INT]
      exact lt_of_le_of_ne hcap hne
    have hlt : d.size < 2 ^ 61 := by
      by_cases heq : d.size = d.cap
      · rw [heq]; exact hfull heq
      · exact lt_of_lt_of_le (lt_of_le_of_ne hinv.le heq) hcap
    obtain ⟨d1, h1, hwf1, hs1, hc1, hcap1⟩ := push_back_true_spec d v hwf hinv.le hlt
    rw [h1] at hB
    simp only at hB
    have hinv1 : CapInv d1.size d1.cap := by
      rw [hs1, hcap1]; exact hinv.step
    have hcap1' : d1.cap ≤ 2 ^ 61 := by
      rw [hcap1]
      by_cases heq : d.size = d.cap
      · rw [if_pos heq]
        have hc := hfull heq
        rcases hinv with ⟨_, h0⟩ | ⟨k, hk, _, _⟩
        · rw [h0]; norm_num
        · rw [hk] at hc ⊢
          have hk1 : k < 61 := (Nat.pow_lt_pow_iff_right (by norm_num : 1 < 2)).mp hc
          have h2 : 2 * 2 ^ k = 2 ^ (k + 1) := by rw [pow_succ]; ring
          rw [h2]
          exact max_le (Nat.one_le_two_pow) (Nat.pow_le_pow_right (by norm_num) (by omega))
      · rw [if_neg heq]; exact hcap
    obtain ⟨d2, h2, hwf2, hs2, hc2, hinv2⟩ := ih d1 hwf1 hinv1 hcap1' hB
    refine ⟨d2, ?_, hwf2, ?_, ?_, hinv2⟩
    · simp only [push_seq, h1, h2, List.length_cons, List.replicate_succ]
    · rw [hs2, hs1, List.length_cons]; omega
    · rw [hc2, hc1, List.append_assoc]; rfl

/-- The condition of `push_seq_granted` is met by every run that stores at
most `2 ^ 61` values: up to there no byte count wraps. -/
theorem reallocs_succeed_within (xs : List Int) :
    ∀ d : Dyn, d.wf → CapInv d.size d.cap → d.size + xs.length ≤ 2 ^ 61 →
      reallocs_succeed d xs = true := by
  induction xs with
  | nil => intro d _ _ _; rfl
  | cons v vs ih =>
    intro d hwf hinv hb
    simp only [List.length_cons] at hb
    obtain ⟨d1, h1, hwf1, hs1, _, hcap1⟩ := push_back_true_spec d v hwf hinv.le (by omega)
    have hinv1 : CapInv d1.size d1.cap := by
      rw [hs1, hcap1]; exact hinv.step
    have hrec := ih d1 hwf1 hinv1 (by rw [hs1]; omega)
    have hfirst : (if d.size = d.cap then (realloc true d.data (grow_request d)).isSome
        else true) = true := by
      split_ifs with heq
      · have hreq : grow_request d ≠ 0 := by
          have hc := hwf.2.1
          simp only [SIZE_MOD] at hc
          norm_num at hb hc
          simp only [grow_request, SIZE_MOD, SIZEOF_INT]
          split_ifs with h0 <;> omega
        rw [realloc_granted d.data _ hreq]
        rfl
      · rfl
    simp only [reallocs_succeed, hfirst, h1, hrec, Bool.and_self]

/-- C1: for every list of `N` int values, when every `realloc` call made
while they are pushed from `init()` returns a block, every one of the `N`
calls of `push_back` returns 1, the final `size` is `N`, and the final `cap`
is 0 when `N = 0` and otherwise the smallest power of two that is at least
`N`. -/
theorem push_back_n_times (d0 : Dyn) (xs : List Int)
    (hgr : reallocs_succeed (init d0) xs = true) :
    ∃ d, push_seq (init d0) xs = some (List.replicate xs.length 1, d) ∧
      d.size = xs.length ∧
      (xs.length = 0 → d.cap = 0) ∧
      (0 < xs.length →
        ∃ k, d.cap = 2 ^ k ∧ xs.length ≤ d.cap ∧ ∀ j, xs.length ≤ 2 ^ j → d.cap ≤ 2 ^ j) := by
  obtain ⟨d, h1, _, hs, _, hinv⟩ := push_seq_granted xs (init d0) (init_wf d0) (init_capInv d0)
    (by simp [init]) hgr
  have hsz : d.size = xs.length := by rw [hs]; simp [init]
  refine ⟨d, h1, hsz, ?_, ?_⟩
  · intro h0
    rw [hsz, h0] at hinv
    rcases hinv with ⟨_, h⟩ | ⟨k, _, _, h⟩
    · exact h
    · omega
  · intro hpos
    rw [hsz] at hinv
    exact hinv.least hpos

/-- Witness of `push_back_n_times`: the five pushes of `main`. -/
theorem push_back_n_times_witness :
    reallocs_succeed (init { data := none, size := 0, cap := 0 }) [1, 2, 3, 4, 5] = true ∧
    ∃ d, push_seq (init { data := none, size := 0, cap := 0 }) [1, 2, 3, 4, 5] =
        some (List.replicate ([1, 2, 3, 4, 5] : List Int).length 1, d) ∧
      d.size = ([1, 2, 3, 4, 5] : List Int).length ∧
      (([1, 2, 3, 4, 5] : List Int).length = 0 → d.cap = 0) ∧
      (0 < ([1, 2, 3, 4, 5] : List Int).length →
        ∃ k, d.cap = 2 ^ k ∧ ([1, 2, 3, 4, 5] : List Int).length ≤ d.cap ∧
          ∀ j, ([1, 2, 3, 4, 5] : List Int).length ≤ 2 ^ j → d.cap ≤ 2 ^ j) :=
  ⟨by decide, push_back_n_times { data := none, size := 0, cap := 0 } [1, 2, 3, 4, 5]
    (by decide)⟩

/-- Every run from `init()` that pushes at most `2 ^ 61` values has all its
`realloc` calls succeed when the allocator grants what it is asked. -/
theorem reallocs_succeed_from_init (d0 : Dyn) (xs : List Int) (hN : xs.length ≤ 2 ^ 61) :
    reallocs_succeed (init d0) xs = true :=
  reallocs_succeed_within xs (init d0) (init_wf d0) (init_capInv d0)
    (by simp only [init]; omega)

/-- The five pushes of `main`, evaluated: capacities 1, 2, 4, 8. -/
theorem push_seq_main_eval :
    push_seq (init { data := none, size := 0, cap := 0 }) [1, 2, 3, 4, 5] =
      some ([1, 1, 1, 1, 1], { data := some [1, 2, 3, 4, 5, 0, 0, 0], size := 5, cap := 8 }) := by
  decide

/-- C2: for every list `xs` of `N` int values, when every `realloc` call
made while `xs` is pushed onto an empty buffer returns a block, the `N`
calls of `pop_back` that follow all return 1, hand out the elements of `xs`
in reverse insertion order, and end with `size == 0`, so that one further
`pop_back` returns 0. -/
theorem push_pop_lifo (d0 : Dyn) (xs : List Int) (out : Int)
    (hgr : reallocs_succeed (init d0) xs = true) :
    ∃ d2 out2, push_then_pop (init d0) xs out =
        some (List.replicate xs.length 1, xs.reverse.map (fun x => ((1 : Int), x)), d2, out2) ∧
      d2.size = 0 ∧ pop_back d2 out2 = some (0, d2, out2) := by
  obtain ⟨d1, h1, hwf1, hs1, hc1, hinv1⟩ := push_seq_granted xs (init d0) (init_wf d0)
    (init_capInv d0) (by simp [init]) hgr
  have hsz : d1.size = xs.length := by rw [hs1]; simp [init]
  have hcont : d1.contents = xs := by rw [hc1]; simp [init, Dyn.contents]
  obtain ⟨out2, h2⟩ := pop_seq_contents d1 out hwf1 hinv1.le
  rw [hsz, hcont] at h2
  refine ⟨{ d1 with size := 0 }, out2, ?_, rfl, ?_⟩
  · simp only [push_then_pop, h1, h2]
  · simp [pop_back]

/-- Witness of `push_pop_lifo`: the run of `main`, pushing 1..5. -/
theorem push_pop_lifo_witness :
    reallocs_succeed (init { data := none, size := 0, cap := 0 }) [1, 2, 3, 4, 5] = true ∧
    ∃ d2 out2, push_then_pop (init { data := none, size := 0, cap := 0 }) [1, 2, 3, 4, 5] 0 =
        some (List.replicate ([1, 2, 3, 4, 5] : List Int).length 1,
          ([1, 2, 3, 4, 5] : List Int).reverse.map (fun x => ((1 : Int), x)), d2, out2) ∧
      d2.size = 0 ∧ pop_back d2 out2 = some (0, d2, out2) :=
  ⟨by decide, push_pop_lifo { data := none, size := 0, cap := 0 } [1, 2, 3, 4, 5] 0
    (by decide)⟩

/-- The run of `main`, evaluated: 5, 4, 3, 2, 1 are popped in that order. -/
theorem push_then_pop_main_eval :
    push_then_pop (init { data := none, size := 0, cap := 0 }) [1, 2, 3, 4, 5] 0 =
      some ([1, 1, 1, 1, 1], [(1, 5), (1, 4), (1, 3), (1, 2), (1, 1)],
        { data := some [1, 2, 3, 4, 5, 0, 0, 0], size := 0, cap := 8 }, 1) := by
  decide

/-- C8: on a full buffer (`size == cap`) a failing `realloc` makes
`push_back` return 0 with `data`, `size` and `cap` exactly as before; and
on a buffer with `size < cap` the call returns 1 whatever the allocator
would have answered, its result being that of the plain store, because the
allocator is not consulted. -/
theorem push_back_failure_atomic (d : Dyn) (v : Int) :
    (d.size = d.cap → push_back false d v = some (0, d)) ∧
    (d.wf → d.size < d.cap →
      ∀ ok, push_back ok d v = store_back d v ∧ ∃ d1, push_back ok d v = some (1, d1)) := by
  refine ⟨fun h => ?_, fun hwf hlt ok => ?_⟩
  · exact push_back_refused d v h
  · have hne : d.size ≠ d.cap := by omega
    obtain ⟨d1, h1, _⟩ := store_back_spec d v (by rw [hwf.1]; exact hlt)
      (by have := hwf.2.1; omega)
    have heq : push_back ok d v = store_back d v := by simp only [push_back, if_neg hne]
    exact ⟨heq, d1, heq.trans h1⟩

/-- Witness of `push_back_failure_atomic`: a full buffer of two slots, and
the same block with only one slot in use. -/
theorem push_back_failure_atomic_witness :
    push_back false { data := some [7, 8], size := 2, cap := 2 } 9 =
      some (0, { data := some [7, 8], size := 2, cap := 2 }) ∧
    ∀ ok, push_back ok { data := some [7, 8], size := 1, cap := 2 } 9 =
        store_back { data := some [7, 8], size := 1, cap := 2 } 9 ∧
      ∃ d1, push_back ok { data := some [7, 8], size := 1, cap := 2 } 9 = some (1, d1) :=
  ⟨(push_back_failure_atomic { data := some [7, 8], size := 2, cap := 2 } 9).1 rfl,
   (push_back_failure_atomic { data := some [7, 8], size := 1, cap := 2 } 9).2
      (by decide) (by decide)⟩

/-- C9: on a buffer with `size <= cap`, a `push_back(v)` that returns 1
leaves the logical contents equal to the old contents followed by `v`
(every old element keeps its index and value, also across a growth),
`size` one larger, and `cap` equal to `max(1, 2 * old cap)` when the buffer
was full and to the old `cap` otherwise.  Such a call does return 1 when
the buffer has a free slot, or when it is full, `realloc` succeeds and
`cap < 2 ^ 61`. -/
theorem push_back_success (ok : Bool) (d : Dyn) (v : Int) (hwf : d.wf) (hle : d.size ≤ d.cap) :
    (∀ d1, push_back ok d v = some (1, d1) →
      d1.contents = d.contents ++ [v] ∧
      (∀ i, i < d.size → d1.contents[i]? = d.contents[i]?) ∧
      d1.size = d.size + 1 ∧
      d1.cap = (if d.size = d.cap then max 1 (2 * d.cap) else d.cap)) ∧
    (d.size < d.cap ∨ (ok = true ∧ d.cap < 2 ^ 61) → ∃ d1, push_back ok d v = some (1, d1)) := by
  obtain ⟨hs, hc, hz⟩ := hwf
  have hlen := slots_eq_length d
  have hcont : d.contents.length = d.size := by
    simp only [Dyn.contents, List.length_take]; omega
  constructor
  · intro d1 h
    have key : d1.contents = d.contents ++ [v] ∧ d1.size = d.size + 1 ∧
        d1.cap = (if d.size = d.cap then max 1 (2 * d.cap) else d.cap) := by
      by_cases heq : d.size = d.cap
      · cases ok with
        | false =>
          rw [push_back_refused d v heq] at h
          simp at h
        | true =>
          have hreq : grow_request d ≠ 0 := by
            intro h0
            rw [push_back_zero_request true d v heq h0] at h
            simp at h
          rw [push_back_full_true d v heq hreq] at h
          have hdef := store_back_defined _ v _ h
          simp only [Dyn.slots, grow_length] at hdef
          have hnc : (if d.cap ≠ 0 then d.cap * 2 % SIZE_MOD else 1) = max 1 (2 * d.cap) ∧
              (if d.cap ≠ 0 then d.cap * 2 % SIZE_MOD else 1) * SIZEOF_INT % SIZE_MOD /
                SIZEOF_INT = max 1 (2 * d.cap) := by
            simp only [SIZE_MOD, SIZEOF_INT] at hdef hc ⊢
            norm_num at hdef hc ⊢
            split_ifs at hdef ⊢ with h0 <;> omega
          rw [hnc.2, hnc.1] at h
          obtain ⟨d2, h2, _, h3, h4, h5⟩ := store_back_spec
            { data := some ((d.data.getD []).take (max 1 (2 * d.cap)) ++
                List.replicate (max 1 (2 * d.cap) - (d.data.getD []).length) 0),
              size := d.size, cap := max 1 (2 * d.cap) } v
            (by simp only [Dyn.slots, grow_length]; omega)
            (by
              simp only [SIZE_MOD, SIZEOF_INT] at hdef hc ⊢
              norm_num at hdef hc ⊢
              split_ifs at hdef with h0 <;> omega)
          rw [h2] at h
          have hd : d2 = d1 := by simpa using h
          subst hd
          refine ⟨?_, h4, by rw [h3, if_pos heq]⟩
          rw [h5, contents_of_some, grow_take _ _ d.size (by omega) (by omega)]
          rfl
      · simp only [push_back, if_neg heq] at h
        obtain ⟨d2, h2, _, h3, h4, h5⟩ := store_back_spec d v (by omega)
          (by simp only [SIZE_MOD] at hc ⊢; omega)
        rw [h2] at h
        have hd : d2 = d1 := by simpa using h
        subst hd
        exact ⟨h5, h4, by rw [h3, if_neg heq]⟩
    refine ⟨key.1, ?_, key.2.1, key.2.2⟩
    intro i hi
    rw [key.1, List.getElem?_append_left (by omega)]
  · rintro (hlt | ⟨hok, hcap⟩)
    · have hne : d.size ≠ d.cap := by omega
      obtain ⟨d1, h1, _⟩ := store_back_spec d v (by omega)
        (by simp only [SIZE_MOD] at hc ⊢; omega)
      exact ⟨d1, by simp only [push_back, if_neg hne]; exact h1⟩
    · by_cases heq : d.size = d.cap
      · subst hok
        obtain ⟨d1, h1, _⟩ := push_back_true_spec d v ⟨hs, hc, hz⟩ hle (by omega)
        exact ⟨d1, h1⟩
      · obtain ⟨d1, h1, _⟩ := store_back_spec d v (by omega)
          (by simp only [SIZE_MOD] at hc ⊢; omega)
        exact ⟨d1, by simp only [push_back, if_neg heq]; exact h1⟩

/-- Witness of `push_back_success`: a full buffer of two slots grows to four. -/
theorem push_back_success_witness :
    push_back true { data := some [1, 2], size := 2, cap := 2 } 3 =
      some (1, { data := some [1, 2, 3, 0], size := 3, cap := 4 }) ∧
    Dyn.contents { data := some [1, 2, 3, 0], size := 3, cap := 4 } =
      Dyn.contents { data := some [1, 2], size := 2, cap := 2 } ++ [3] ∧
    Dyn.size { data := some [1, 2, 3, 0], size := 3, cap := 4 } = 2 + 1 ∧
    Dyn.cap { data := some [1, 2, 3, 0], size := 3, cap := 4 } = max 1 (2 * 2) :=
  have h := (push_back_success true { data := some [1, 2], size := 2, cap := 2 } 3
    (by decide) (by decide)).1 { data := some [1, 2, 3, 0], size := 3, cap := 4 } (by decide)
  ⟨by decide, h.1, h.2.2.1, h.2.2.2⟩

/-- C10: on a buffer with `size == 0`, whatever its `cap` and `data`,
`pop_back` returns 0, hands back the caller's `*out` unwritten, and leaves
`data`, `size` and `cap` unchanged. -/
theorem pop_back_empty (d : Dyn) (out : Int) (h : d.size = 0) :
    pop_back d out = some (0, d, out) := by
  simp [pop_back, h]

/-- Witness of `pop_back_empty`: an emptied buffer that still owns eight slots. -/
theorem pop_back_empty_witness :
    pop_back { data := some [1, 2, 3, 4, 5, 0, 0, 0], size := 0, cap := 8 } 42 =
      some (0, { data := some [1, 2, 3, 4, 5, 0, 0, 0], size := 0, cap := 8 }, 42) :=
  pop_back_empty { data := some [1, 2, 3, 4, 5, 0, 0, 0], size := 0, cap := 8 } 42 rfl

/-- C11: on a well-formed buffer with `0 < size <= cap`, `pop_back` returns
1, hands out the element stored at index `size - 1`, reduces `size` by
exactly one and leaves `data` and `cap` as they were, so that the elements
below the new `size` keep their indices and values. -/
theorem pop_back_nonempty (d : Dyn) (out : Int) (hwf : d.wf) (hle : d.size ≤ d.cap)
    (hpos : 0 < d.size) :
    ∃ x, d.contents[d.size - 1]? = some x ∧
      pop_back d out = some (1, { d with size := d.size - 1 }, x) ∧
      Dyn.contents { d with size := d.size - 1 } = d.contents.take (d.size - 1) ∧
      ∀ i, i < d.size - 1 → (Dyn.contents { d with size := d.size - 1 })[i]? = d.contents[i]? := by
  obtain ⟨data, size, cap⟩ := d
  obtain ⟨hs, -, -⟩ := hwf
  simp only at hle hpos
  cases data with
  | none =>
    simp only [Dyn.slots] at hs
    omega
  | some blk =>
    simp only [Dyn.slots] at hs
    have hlt : size - 1 < blk.length := by omega
    have hne : size ≠ 0 := by omega
    have htk : (blk.take size).take (size - 1) = blk.take (size - 1) := by
      rw [List.take_take, min_eq_left (by omega)]
    refine ⟨blk[size - 1], ?_, ?_, ?_, ?_⟩
    · simp only [Dyn.contents, Option.getD_some]
      rw [List.getElem?_take_of_lt (by omega), List.getElem?_eq_getElem hlt]
    · simp only [pop_back, if_neg hne, List.getElem?_eq_getElem hlt]
    · simp only [Dyn.contents, Option.getD_some, htk]
    · intro i hi
      simp only at hi
      simp only [Dyn.contents, Option.getD_some]
      rw [List.getElem?_take_of_lt hi, List.getElem?_take_of_lt (by omega)]

/-- Witness of `pop_back_nonempty`: the first pop of `main`, after five pushes. -/
theorem pop_back_nonempty_witness :
    ∃ x, (Dyn.contents { data := some [1, 2, 3, 4, 5, 0, 0, 0], size := 5, cap := 8 })[5 - 1]? =
        some x ∧
      pop_back { data := some [1, 2, 3, 4, 5, 0, 0, 0], size := 5, cap := 8 } 0 =
        some (1, { data := some [1, 2, 3, 4, 5, 0, 0, 0], size := 5 - 1, cap := 8 }, x) ∧
      Dyn.contents { data := some [1, 2, 3, 4, 5, 0, 0, 0], size := 5 - 1, cap := 8 } =
        (Dyn.contents { data := some [1, 2, 3, 4, 5, 0, 0, 0], size := 5, cap := 8 }).take (5 - 1) ∧
      ∀ i, i < 5 - 1 →
        (Dyn.contents { data := some [1, 2, 3, 4, 5, 0, 0, 0], size := 5 - 1, cap := 8 })[i]? =
          (Dyn.contents { data := some [1, 2, 3, 4, 5, 0, 0, 0], size := 5, cap := 8 })[i]? :=
  pop_back_nonempty { data := some [1, 2, 3, 4, 5, 0, 0, 0], size := 5, cap := 8 } 0
    (by decide) (by decide) (by decide)

/-- The first pop of `main`, evaluated: 5 is handed out and `size` becomes 4. -/
theorem pop_back_main_eval :
    pop_back { data := some [1, 2, 3, 4, 5, 0, 0, 0], size := 5, cap := 8 } 0 =
      some (1, { data := some [1, 2, 3, 4, 5, 0, 0, 0], size := 4, cap := 8 }, 5) := by
  decide

/-- Every defined result of `push_back` on a well-formed buffer: either the
call returns 0 and the buffer is as before, or it returns 1, the buffer
stays well-formed, `size` grows by one and `cap` is doubled (from 0: set to
1) exactly when the buffer was full. -/
theorem push_back_result (ok : Bool) (d : Dyn) (v : Int) (r : Int) (d1 : Dyn)
    (hwf : d.wf) (hle : d.size ≤ d.cap) (h : push_back ok d v = some (r, d1)) :
    (r = 0 ∧ d1 = d) ∨
    (r = 1 ∧ d1.wf ∧ d1.size = d.size + 1 ∧
      d1.cap = (if d.size = d.cap then max 1 (2 * d.cap) else d.cap)) := by
  obtain ⟨hs, hc, hz⟩ := hwf
  have hlen := slots_eq_length d
  by_cases heq : d.size = d.cap
  · cases ok with
    | false =>
      left
      rw [push_back_refused d v heq] at h
      simp only [Option.some.injEq, Prod.mk.injEq] at h
      exact ⟨h.1.symm, h.2.symm⟩
    | true =>
      by_cases hreq : grow_request d = 0
      · left
        rw [push_back_zero_request true d v heq hreq] at h
        simp only [Option.some.injEq, Prod.mk.injEq] at h
        exact ⟨h.1.symm, h.2.symm⟩
      right
      rw [push_back_full_true d v heq hreq] at h
      have hdef := store_back_defined _ v _ h
      simp only [Dyn.slots, grow_length] at hdef
      have hnc : (if d.cap ≠ 0 then d.cap * 2 % SIZE_MOD else 1) = max 1 (2 * d.cap) ∧
          (if d.cap ≠ 0 then d.cap * 2 % SIZE_MOD else 1) * SIZEOF_INT % SIZE_MOD /
            SIZEOF_INT = max 1 (2 * d.cap) ∧ max 1 (2 * d.cap) < 2 ^ 62 := by
        simp only [SIZE_MOD, SIZEOF_INT] at hdef hc ⊢
        norm_num at hdef hc ⊢
        split_ifs at hdef ⊢ with h0 <;> omega
      rw [hnc.2.1, hnc.1] at h
      obtain ⟨d2, h2, h2s, h3, h4, _⟩ := store_back_spec
        { data := some ((d.data.getD []).take (max 1 (2 * d.cap)) ++
            List.replicate (max 1 (2 * d.cap) - (d.data.getD []).length) 0),
          size := d.size, cap := max 1 (2 * d.cap) } v
        (by simp only [Dyn.slots, grow_length]; omega)
        (by
          have := hnc.2.2
          simp only [SIZE_MOD] at hc ⊢
          norm_num at this hc ⊢
          omega)
      rw [h2] at h
      simp only [Option.some.injEq, Prod.mk.injEq] at h
      have hd : d2 = d1 := h.2
      have hr : (1 : Int) = r := h.1
      subst hd
      refine ⟨hr.symm, ⟨?_, ?_, ?_⟩, h4, by rw [h3, if_pos heq]⟩
      · rw [h2s, h3]; simp only [Dyn.slots, grow_length]
      · rw [h3]
        have := hnc.2.2
        simp only [SIZE_MOD]
        norm_num at this ⊢
        omega
      · rw [h4]
        have := hnc.2.2
        simp only [SIZE_MOD]
        norm_num at this ⊢
        omega
  · right
    simp only [push_back, if_neg heq] at h
    obtain ⟨d2, h2, h2s, h3, h4, _⟩ := store_back_spec d v (by omega)
      (by simp only [SIZE_MOD] at hc ⊢; omega)
    rw [h2] at h
    simp only [Option.some.injEq, Prod.mk.injEq] at h
    have hd : d2 = d1 := h.2
    have hr : (1 : Int) = r := h.1
    subst hd
    refine ⟨hr.symm, ⟨?_, ?_, ?_⟩, h4, by rw [h3, if_neg heq]⟩
    · rw [h2s, h3]; exact hs
    · rw [h3]; exact hc
    · rw [h4]; simp only [SIZE_MOD] at hc ⊢; omega

/-- Every defined result of `pop_back`: the buffer is as before, or only
its `size` is one less. -/
theorem pop_back_result (d : Dyn) (out : Int) (r : Int) (d1 : Dyn) (o : Int)
    (h : pop_back d out = some (r, d1, o)) :
    d1 = d ∨ (d.size ≠ 0 ∧ d1 = { d with size := d.size - 1 }) := by
  by_cases h0 : d.size = 0
  · left
    simp only [pop_back, if_pos h0, Option.some.injEq, Prod.mk.injEq] at h
    exact h.2.1.symm
  · right
    refine ⟨h0, ?_⟩
    simp only [pop_back, if_neg h0] at h
    cases hd : d.data with
    | none => rw [hd] at h; simp at h
    | some xs =>
      rw [hd] at h
      simp only at h
      cases hx : xs[d.size - 1]? with
      | none => rw [hx] at h; simp at h
      | some x =>
        rw [hx] at h
        simp only [Option.some.injEq, Prod.mk.injEq] at h
        exact h.2.1.symm

/-- One call keeps the invariant and does not lower `cap`. -/
theorem step_inv (d : Dyn) (op : Op) (d1 : Dyn) (hinv : StateInv d)
    (h : step d op = some d1) : StateInv d1 ∧ d.cap ≤ d1.cap := by
  obtain ⟨hwf, hle, hpow⟩ := hinv
  cases op with
  | push ok v =>
    simp only [step] at h
    cases hp : push_back ok d v with
    | none => rw [hp] at h; simp at h
    | some p =>
      obtain ⟨r, d2⟩ := p
      rw [hp] at h
      simp only [Option.some.injEq] at h
      subst h
      rcases push_back_result ok d v r d2 hwf hle hp with ⟨_, h2⟩ | ⟨_, hwf2, hs2, hc2⟩
      · subst h2
        exact ⟨⟨hwf, hle, hpow⟩, le_refl _⟩
      · by_cases heq : d.size = d.cap
        · rw [if_pos heq] at hc2
          refine ⟨⟨hwf2, by rw [hs2, hc2]; omega, Or.inr ?_⟩, by rw [hc2]; omega⟩
          rcases hpow with h0 | ⟨k, hk⟩
          · exact ⟨0, by rw [hc2, h0]; rfl⟩
          · refine ⟨k + 1, ?_⟩
            have hpos : 0 < 2 ^ k := Nat.pow_pos (by norm_num)
            rw [hc2, hk, pow_succ]
            omega
        · rw [if_neg heq] at hc2
          exact ⟨⟨hwf2, by rw [hs2, hc2]; omega, by rw [hc2]; exact hpow⟩, by rw [hc2]⟩
  | pop =>
    simp only [step] at h
    cases hp : pop_back d 0 with
    | none => rw [hp] at h; simp at h
    | some p =>
      obtain ⟨r, d2, o⟩ := p
      rw [hp] at h
      simp only [Option.some.injEq] at h
      subst h
      rcases pop_back_result d 0 r d2 o hp with h2 | ⟨_, h2⟩
      · subst h2
        exact ⟨⟨hwf, hle, hpow⟩, le_refl _⟩
      · subst h2
        obtain ⟨hs, hc, hz⟩ := hwf
        exact ⟨⟨⟨hs, hc, by simp only; omega⟩, by simp only; omega, hpow⟩, le_refl _⟩

theorem run_inv (ops : List Op) :
    ∀ (d d1 : Dyn), StateInv d → run d ops = some d1 → StateInv d1 := by
  induction ops with
  | nil =>
    intro d d1 hinv h
    simp only [run, Option.some.injEq] at h
    subst h
    exact hinv
  | cons op ops ih =>
    intro d d1 hinv h
    simp only [run] at h
    cases hs : step d op with
    | none => rw [hs] at h; simp at h
    | some d2 =>
      rw [hs] at h
      exact ih d2 d1 (step_inv d op d2 hinv hs).1 h

theorem init_inv (d0 : Dyn) : StateInv (init d0) :=
  ⟨init_wf d0, le_refl _, Or.inl rfl⟩

/-- C12: in every buffer state reached from `init()` by a finite sequence
of `push_back` calls (with `realloc` succeeding or failing) and `pop_back`
calls, `size <= cap` holds and `cap` is 0 or a power of two; and no further
`push_back` or `pop_back` call from such a state makes `cap` smaller. -/
theorem reachable_invariant (d0 : Dyn) (ops : List Op) (d : Dyn)
    (h : run (init d0) ops = some d) :
    d.size ≤ d.cap ∧ (d.cap = 0 ∨ ∃ k, d.cap = 2 ^ k) ∧
    ∀ op d1, step d op = some d1 → d.cap ≤ d1.cap := by
  have hinv := run_inv ops (init d0) d (init_inv d0) h
  exact ⟨hinv.2.1, hinv.2.2, fun op d1 hs => (step_inv d op d1 hinv hs).2⟩

/-- Witness of `reachable_invariant`: pushes with one failed growth and a
pop in between, ending with three elements in four slots. -/
theorem reachable_invariant_witness :
    Dyn.size { data := some [1, 4, 5, 0], size := 3, cap := 4 } ≤
      Dyn.cap { data := some [1, 4, 5, 0], size := 3, cap := 4 } ∧
    (Dyn.cap { data := some [1, 4, 5, 0], size := 3, cap := 4 } = 0 ∨
      ∃ k, Dyn.cap { data := some [1, 4, 5, 0], size := 3, cap := 4 } = 2 ^ k) ∧
    ∀ op d1, step { data := some [1, 4, 5, 0], size := 3, cap := 4 } op = some d1 →
      Dyn.cap { data := some [1, 4, 5, 0], size := 3, cap := 4 } ≤ d1.cap :=
  reachable_invariant { data := none, size := 0, cap := 0 }
    [Op.push true 1, Op.push false 2, Op.push true 3, Op.pop, Op.push true 4, Op.push true 5]
    { data := some [1, 4, 5, 0], size := 3, cap := 4 } (by decide)

/-- C17: whatever the buffer holds, `destroy` leaves it in the state that
`init()` produces, with `data == NULL`, `size == 0` and `cap == 0`; so a
second `destroy` changes nothing, and a `push_back` after `destroy` gives
the result it gives on a freshly initialised buffer. -/
theorem destroy_resets (d d0 : Dyn) :
    destroy d = init d0 ∧
    (destroy d).data = none ∧ (destroy d).size = 0 ∧ (destroy d).cap = 0 ∧
    destroy (destroy d) = destroy d ∧
    ∀ (ok : Bool) (v : Int), push_back ok (destroy d) v = push_back ok (init d0) v :=
  ⟨rfl, rfl, rfl, rfl, rfl, fun _ _ => rfl⟩

/-- A push after `destroy`, evaluated on a buffer that held five elements:
the buffer restarts with one slot. -/
theorem push_after_destroy_eval :
    push_back true (destroy { data := some [1, 2, 3, 4, 5, 0, 0, 0], size := 5, cap := 8 }) 9 =
      some (1, { data := some [9], size := 1, cap := 1 }) := by
  decide

end Ch09P19

/-! ## Theorems: the contact directory -/

namespace Ch08

/-- What the scan of `find_contact` from index `i` returns: `-1` when no
entry from `i` on matches, and otherwise the first matching index. -/
theorem find_loop_spec (a : List Contact) (n : Int) (name : List Char) :
    ∀ (fuel i : Nat), (n - i).toNat ≤ fuel →
      (find_loop a n name fuel i = -1 ∧
        ∀ j : Nat, i ≤ j → (j : Int) < n → (a.getD j default).name ≠ name) ∨
      (∃ r : Nat, find_loop a n name fuel i = r ∧ i ≤ r ∧ (r : Int) < n ∧
        (a.getD r default).name = name ∧
        ∀ j : Nat, i ≤ j → j < r → (a.getD j default).name ≠ name) := by
  intro fuel
  induction fuel with
  | zero =>
    intro i hf
    left
    refine ⟨rfl, fun j hij hjn => ?_⟩
    omega
  | succ fuel ih =>
    intro i hf
    by_cases hin : (i : Int) < n
    · by_cases hname : (a.getD i default).name = name
      · right
        refine ⟨i, ?_, le_refl i, hin, hname, fun j h1 h2 => by omega⟩
        simp only [find_loop, if_pos hin, Int.toNat_ofNat, if_pos hname]
      · have hstep : find_loop a n name (fuel + 1) i = find_loop a n name fuel ((i + 1 : Nat) : Int) := by
          simp only [find_loop, if_pos hin, Int.toNat_ofNat, if_neg hname, Nat.cast_add, Nat.cast_one]
        rw [hstep]
        rcases ih (i + 1) (by omega) with ⟨h1, h2⟩ | ⟨r, h1, h2, h3, h4, h5⟩
        · left
          refine ⟨h1, fun j hij hjn => ?_⟩
          rcases Nat.eq_or_lt_of_le hij with heq | hlt
          · rw [← heq]; exact hname
          · exact h2 j hlt hjn
        · right
          refine ⟨r, h1, by omega, h3, h4, fun j hij hjr => ?_⟩
          rcases Nat.eq_or_lt_of_le hij with heq | hlt
          · rw [← heq]; exact hname
          · exact h5 j hlt hjr
    · left
      refine ⟨by simp only [find_loop, if_neg hin], fun j hij hjn => ?_⟩
      omega

theorem find_contact_cases (a : List Contact) (n : Int) (name : List Char) :
    (find_contact a n name = -1 ∧
      ∀ j : Nat, (j : Int) < n → (a.getD j default).name ≠ name) ∨
    (∃ r : Nat, find_contact a n name = r ∧ (r : Int) < n ∧
      (a.getD r default).name = name ∧
      ∀ j : Nat, j < r → (a.getD j default).name ≠ name) := by
  rcases find_loop_spec a n name n.toNat 0 (by simp) with ⟨h1, h2⟩ | ⟨r, h1, _, h3, h4, h5⟩
  · exact Or.inl ⟨h1, fun j hj => h2 j (Nat.zero_le j) hj⟩
  · exact Or.inr ⟨r, h1, h3, h4, fun j hj => h5 j (Nat.zero_le j) hj⟩

/-- C7: for an array `a` holding at least `n` contacts, `find_contact`
returns `-1` exactly when none of the first `n` names equals `name`, and
otherwise returns the smallest index below `n` whose name equals `name`;
on the book Alice, Bob, Cara the name "Cara" is found at index 2. -/
theorem find_contact_first_match (a : List Contact) (n : Int) (name : List Char)
    (_hn : n ≤ a.length) :
    (find_contact a n name = -1 ↔
      ∀ i : Nat, (i : Int) < n → (a.getD i default).name ≠ name) ∧
    (∀ i : Nat, (i : Int) < n → (a.getD i default).name = name →
      (∀ j : Nat, j < i → (a.getD j default).name ≠ name) → find_contact a n name = i) ∧
    (find_contact a n name ≠ -1 →
      ∃ i : Nat, find_contact a n name = i ∧ (i : Int) < n ∧ (a.getD i default).name = name ∧
        ∀ j : Nat, j < i → (a.getD j default).name ≠ name) ∧
    find_contact book 3 "Cara".toList = 2 := by
  refine ⟨⟨fun h => ?_, fun h => ?_⟩, fun i hi hname hmin => ?_, fun h => ?_, by decide⟩
  · rcases find_contact_cases a n name with ⟨_, h2⟩ | ⟨r, h1, _⟩
    · exact h2
    · rw [h1] at h; omega
  · rcases find_contact_cases a n name with ⟨h1, _⟩ | ⟨r, _, h3, h4, _⟩
    · exact h1
    · exact absurd h4 (h r h3)
  · rcases find_contact_cases a n name with ⟨_, h2⟩ | ⟨r, h1, h3, h4, h5⟩
    · exact absurd hname (h2 i hi)
    · rw [h1]
      rcases Nat.lt_trichotomy r i with hlt | heq | hgt
      · exact absurd h4 (hmin r hlt)
      · rw [heq]
      · exact absurd hname (h5 i hgt)
  · rcases find_contact_cases a n name with ⟨h1, _⟩ | ⟨r, h1, h3, h4, h5⟩
    · exact absurd h1 h
    · exact ⟨r, h1, h3, h4, h5⟩

/-- Witness of `find_contact_first_match`: the book of `main` and "Bob". -/
theorem find_contact_first_match_witness :
    find_contact book 3 "Bob".toList = 1 :=
  (find_contact_first_match book 3 "Bob".toList (by decide)).2.1 1 (by decide) (by decide)
    (by decide)

/-- The shifting loop of `delete_contact`, run for `k` steps from the index
`pre.length`: the length is kept, and the entries in front of index
`pre.length + k` are `pre` followed by the `k` entries that came after the
one at `pre.length`. -/
theorem shift_loop_spec (n : Int) :
    ∀ (k : Nat) (pre : List Contact) (x : Contact) (rest : List Contact),
      k ≤ rest.length → n - 1 = (pre.length : Int) + k →
      (shift_loop n k pre.length (pre ++ x :: rest)).length = (pre ++ x :: rest).length ∧
      (shift_loop n k pre.length (pre ++ x :: rest)).take (pre.length + k) =
        pre ++ rest.take k := by
  intro k
  induction k with
  | zero =>
    intro pre x rest _ _
    simp [shift_loop]
  | succ k ih =>
    intro pre x rest hk hn
    cases rest with
    | nil => simp at hk
    | cons y rest =>
      simp only [List.length_cons, Nat.add_le_add_iff_right] at hk
      have hlt : (pre.length : Int) < n - 1 := by omega
      have hget : (pre ++ x :: y :: rest).getD ((pre.length : Int) + 1).toNat default = y := by
        have : ((pre.length : Int) + 1).toNat = pre.length + 1 := by omega
        rw [this, List.getD_eq_getElem?_getD, List.getElem?_append_right (by omega)]
        simp
      have hset : (pre ++ x :: y :: rest).set pre.length y = (pre ++ [y]) ++ y :: rest := by
        simp [List.set_append_right]
      have hstep : shift_loop n (k + 1) pre.length (pre ++ x :: y :: rest) =
          shift_loop n k ((pre ++ [y]).length) ((pre ++ [y]) ++ y :: rest) := by
        simp only [shift_loop, if_pos hlt, Int.toNat_ofNat, hget, hset, List.length_append,
          List.length_singleton, Nat.cast_add, Nat.cast_one]
      obtain ⟨h1, h2⟩ := ih (pre ++ [y]) y rest hk
        (by simp only [List.length_append, List.length_singleton]; push_cast at hn ⊢; omega)
      rw [hstep]
      constructor
      · rw [h1]; simp
      · have e : pre.length + (k + 1) = (pre ++ [y]).length + k := by
          simp only [List.length_append, List.length_singleton]; omega
        rw [e, h2]
        simp

/-- Splitting a list at an index below its length. -/
theorem split_at_index (a : List Contact) (r : Nat) (hr : r < a.length) :
    a = a.take r ++ a.getD r default :: a.drop (r + 1) := by
  have h : a.getD r default = a[r] := by
    simp [List.getD_eq_getElem?_getD, List.getElem?_eq_getElem hr]
  rw [h, List.getElem_cons_drop a r hr, List.take_append_drop]

/-- C6: for an array `a` holding at least `n` contacts, when one of the
first `n` names equals `name`, `delete_contact` reduces `n` by one and the
first `n - 1` entries afterwards are the first `n` entries of `a` with only
the first match removed, the others in their original order; when no name
matches, the array and `n` are returned exactly as they were.  Deleting
"Bob" from the book Alice, Bob, Cara leaves Alice, Cara. -/
theorem delete_contact_spec (a : List Contact) (n : Int) (name : List Char)
    (hn : n ≤ a.length) :
    ((∃ i : Nat, (i : Int) < n ∧ (a.getD i default).name = name) →
      (delete_contact a n name).2 = n - 1 ∧
      (delete_contact a n name).1.length = a.length ∧
      (delete_contact a n name).1.take (n - 1).toNat =
        (a.take n.toNat).eraseP (fun c => decide (c.name = name))) ∧
    ((∀ i : Nat, (i : Int) < n → (a.getD i default).name ≠ name) →
      delete_contact a n name = (a, n)) ∧
    ((delete_contact book 3 "Bob".toList).2 = 2 ∧
      (delete_contact book 3 "Bob".toList).1.take 2 =
        [ { name := "Alice".toList, phone := "123-4567".toList, age := 20 },
          { name := "Cara".toList, phone := "777-0000".toList, age := 30 } ]) := by
  refine ⟨fun hex => ?_, fun hno => ?_, by decide, by decide⟩
  · rcases find_contact_cases a n name with ⟨_, h2⟩ | ⟨r, h1, h3, h4, h5⟩
    · obtain ⟨i, hi, hname⟩ := hex
      exact absurd hname (h2 i hi)
    · have hr : r < a.length := by omega
      obtain ⟨k, hk⟩ : ∃ k : Nat, n - 1 = (r : Int) + k := ⟨(n - 1 - r).toNat, by omega⟩
      have hidx : ¬ ((r : Int) < 0) := by omega
      have hdel : delete_contact a n name = (shift_loop n k r a, n - 1) := by
        simp only [delete_contact, h1, if_neg hidx]
        have : (n - 1 - (r : Int)).toNat = k := by omega
        rw [this]
      have hsplit := split_at_index a r hr
      have hpre : (a.take r).length = r := by
        rw [List.length_take]; omega
      have hrest : k ≤ (a.drop (r + 1)).length := by
        rw [List.length_drop]; omega
      obtain ⟨hl, ht⟩ := shift_loop_spec n k (a.take r) (a.getD r default) (a.drop (r + 1))
        hrest (by rw [hpre]; exact hk)
      rw [hpre, ← hsplit] at hl ht
      rw [hdel]
      refine ⟨rfl, hl, ?_⟩
      have e1 : (n - 1).toNat = r + k := by omega
      have e2 : n.toNat = r + (k + 1) := by omega
      rw [e1, ht, e2]
      have htake : a.take (r + (k + 1)) =
          a.take r ++ a.getD r default :: (a.drop (r + 1)).take k := by
        conv_lhs => rw [hsplit]
        rw [List.take_append_eq_append_take, hpre,
          List.take_of_length_le (by rw [hpre]; omega)]
        have : r + (k + 1) - r = k + 1 := by omega
        rw [this, List.take_succ_cons]
      rw [htake, List.eraseP_append_right, List.eraseP_cons_of_pos (by simpa using h4)]
      intro b hb
      obtain ⟨j, hj, hbj⟩ := List.mem_take_iff_getElem.mp hb
      have hjr : j < r := by omega
      have := h5 j hjr
      rw [List.getD_eq_getElem _ _ (by omega)] at this
      rw [← hbj]
      simpa using this
  · rcases find_contact_cases a n name with ⟨h1, _⟩ | ⟨r, _, h3, h4, _⟩
    · simp [delete_contact, h1]
    · exact absurd h4 (hno r h3)

/-- Witness of `delete_contact_spec`: deleting "Alice" from the book of `main`. -/
theorem delete_contact_spec_witness :
    (delete_contact book 3 "Alice".toList).2 = 3 - 1 ∧
    (delete_contact book 3 "Alice".toList).1.length = book.length ∧
    (delete_contact book 3 "Alice".toList).1.take (3 - 1 : Int).toNat =
      (book.take (3 : Int).toNat).eraseP (fun c => decide (c.name = "Alice".toList)) :=
  (delete_contact_spec book 3 "Alice".toList (by decide)).1 ⟨0, by decide, by decide⟩

/-! ### Printing and scanning of decimal numbers -/

theorem digit_char_spec (d : Nat) (hd : d < 10) :
    isdigit (Char.ofNat (48 + d)) = true ∧ (Char.ofNat (48 + d)).toNat - 48 = d := by
  interval_cases d <;> exact ⟨by decide, by decide⟩

/-- The digits of `n` do not depend on the fuel, once it exceeds `n`. -/
theorem fmt_nat_aux_eq (n : Nat) :
    ∀ (fuel : Nat) (acc : List Char), n < fuel → fmt_nat_aux fuel n acc = fmt_nat n ++ acc := by
  induction n using Nat.strong_induction_on with
  | _ n ih =>
    intro fuel acc hf
    cases fuel with
    | zero => omega
    | succ f =>
      by_cases h0 : n / 10 = 0
      · simp only [fmt_nat, fmt_nat_aux, if_pos h0, List.singleton_append]
      · have hlt : n / 10 < n := by omega
        simp only [fmt_nat, fmt_nat_aux, if_neg h0]
        rw [ih (n / 10) hlt f _ (by omega), ih (n / 10) hlt n _ hlt, List.append_assoc]
        rfl

theorem fmt_nat_small (n : Nat) (h : n / 10 = 0) : fmt_nat n = [Char.ofNat (48 + n % 10)] := by
  simp only [fmt_nat, fmt_nat_aux, if_pos h]

theorem fmt_nat_large (n : Nat) (h : n / 10 ≠ 0) :
    fmt_nat n = fmt_nat (n / 10) ++ [Char.ofNat (48 + n % 10)] := by
  have hlt : n / 10 < n := by omega
  simp only [fmt_nat, fmt_nat_aux, if_neg h]
  rw [fmt_nat_aux_eq (n / 10) n _ hlt]
  rfl

theorem scan_digits_append (ds : List Char) (hds : ∀ c ∈ ds, isdigit c = true) :
    ∀ (acc : Nat) (rest : List Char),
      scan_digits acc (ds ++ rest) = scan_digits (digits_value acc ds) rest := by
  induction ds with
  | nil => intro acc rest; rfl
  | cons c cs ih =>
    intro acc rest
    have hc : isdigit c = true := hds c (List.mem_cons_self c cs)
    rw [List.cons_append]
    simp only [scan_digits, hc, if_true]
    rw [ih (fun x hx => hds x (List.mem_cons_of_mem c hx))]
    rfl

theorem fmt_nat_digits (n : Nat) :
    (∀ c ∈ fmt_nat n, isdigit c = true) ∧ digits_value 0 (fmt_nat n) = n ∧ fmt_nat n ≠ [] := by
  induction n using Nat.strong_induction_on with
  | _ n ih =>
    have hd := digit_char_spec (n % 10) (Nat.mod_lt n (by norm_num))
    by_cases h0 : n / 10 = 0
    · rw [fmt_nat_small n h0]
      refine ⟨fun c hc => ?_, ?_, by simp⟩
      · rw [List.mem_singleton.mp hc]; exact hd.1
      · simp only [digits_value, List.foldl_cons, List.foldl_nil, hd.2]; omega
    · have hlt : n / 10 < n := by omega
      obtain ⟨h1, h2, _⟩ := ih (n / 10) hlt
      rw [fmt_nat_large n h0]
      refine ⟨fun c hc => ?_, ?_, by simp⟩
      · rcases List.mem_append.mp hc with h | h
        · exact h1 c h
        · rw [List.mem_singleton.mp h]; exact hd.1
      · simp only [digits_value, List.foldl_append, List.foldl_cons, List.foldl_nil] at h2 ⊢
        rw [h2, hd.2]; omega

theorem scan_digits_stop (acc : Nat) (rest : List Char)
    (hrest : ∀ c, rest.head? = some c → isdigit c = false) :
    scan_digits acc rest = (acc, rest) := by
  cases rest with
  | nil => rfl
  | cons c cs => simp only [scan_digits, hrest c rfl, Bool.false_eq_true, if_false]

theorem scan_unsigned_fmt_nat (n : Nat) (rest : List Char)
    (hrest : ∀ c, rest.head? = some c → isdigit c = false) :
    scan_unsigned (fmt_nat n ++ rest) = (some n, rest) := by
  obtain ⟨h1, h2, h3⟩ := fmt_nat_digits n
  have hs : scan_digits 0 (fmt_nat n ++ rest) = (n, rest) := by
    rw [scan_digits_append _ h1, h2, scan_digits_stop n rest hrest]
  cases hf : fmt_nat n with
  | nil => exact absurd hf h3
  | cons c cs =>
    have hc : isdigit c = true := h1 c (by rw [hf]; exact List.mem_cons_self c cs)
    rw [hf] at hs
    rw [List.cons_append] at hs ⊢
    simp only [scan_unsigned, hc, if_true, hs]

theorem isdigit_not_space (c : Char) (h : isdigit c = true) :
    isspace c = false ∧ c ≠ '-' ∧ c ≠ '+' := by
  refine ⟨?_, ?_, ?_⟩
  · by_contra hsp
    simp only [isspace, Bool.not_eq_false, Bool.or_eq_true, decide_eq_true_eq] at hsp
    rcases hsp with ((((h1 | h1) | h1) | h1) | h1) | h1 <;>
      · subst h1
        revert h
        decide
  · intro h1
    subst h1
    revert h
    decide
  · intro h1
    subst h1
    revert h
    decide

theorem skip_ws_of_not_space (c : Char) (cs : List Char) (h : isspace c = false) :
    skip_ws (c :: cs) = c :: cs := by
  simp only [skip_ws, h, Bool.false_eq_true, if_false]

/-- Scanning with `%d` what `%d` printed, when no digit follows. -/
theorem scan_int_fmt_int (i : Int) (rest : List Char)
    (hrest : ∀ c, rest.head? = some c → isdigit c = false) :
    scan_int (fmt_int i ++ rest) = (some i, rest) := by
  by_cases hneg : i < 0
  · have hm := scan_unsigned_fmt_nat (-i).toNat rest hrest
    have hi : -(((-i).toNat : Nat) : Int) = i := by omega
    simp only [fmt_int, if_pos hneg]
    rw [List.cons_append]
    simp only [scan_int, skip_ws_of_not_space '-' _ (by decide), if_true, hm, hi]
  · obtain ⟨h1, _, h3⟩ := fmt_nat_digits i.toNat
    have hm := scan_unsigned_fmt_nat i.toNat rest hrest
    have hi : ((i.toNat : Nat) : Int) = i := by omega
    simp only [fmt_int, if_neg hneg]
    cases hf : fmt_nat i.toNat with
    | nil => exact absurd hf h3
    | cons c cs =>
      have hc : isdigit c = true := h1 c (by rw [hf]; exact List.mem_cons_self c cs)
      obtain ⟨hsp, hminus, hplus⟩ := isdigit_not_space c hc
      rw [hf] at hm
      rw [List.cons_append] at hm ⊢
      simp only [scan_int, skip_ws_of_not_space c _ hsp, if_neg hminus, if_neg hplus, hm, hi]

/-- The conversion `%w[^;]` on a field of at most `w` characters, none of
them `;`, that is followed by `;`. -/
theorem scan_set_field (s : List Char) (hs : ∀ x ∈ s, x ≠ ';') :
    ∀ (w : Nat) (tail : List Char), s.length ≤ w →
      scan_set w (s ++ ';' :: tail) = (s, ';' :: tail) := by
  induction s with
  | nil =>
    intro w tail _
    cases w with
    | zero => rfl
    | succ w => simp [scan_set]
  | cons c cs ih =>
    intro w tail hw
    cases w with
    | zero => simp at hw
    | succ w =>
      have hc : c ≠ ';' := hs c (List.mem_cons_self c cs)
      have hrec := ih (fun x hx => hs x (List.mem_cons_of_mem c hx)) w tail
        (by simpa using hw)
      rw [List.cons_append]
      simp only [scan_set, if_neg hc, hrec, List.cons]

theorem cstr_of_no_nul (s : List Char) (hs : ∀ x ∈ s, x ≠ Char.ofNat 0) : cstr s = s := by
  simp only [cstr]
  rw [List.takeWhile_eq_self_iff]
  intro x hx
  simpa using hs x hx

/-- One call of `fscanf` on the line saved for a loadable contact: all three
conversions succeed, the entry becomes that contact, and the input is left
at the newline that ends the line. -/
theorem fscanf_contact_saved (c : Contact) (hc : c.loadable) (tail : List Char) (e : Contact) :
    fscanf_contact (fprintf_contact c ++ tail) e = (3, '\n' :: tail, c) := by
  obtain ⟨name, phone, age⟩ := c
  obtain ⟨hn0, hp0, hnl, hpl, hn, hp, hsp⟩ := hc
  simp only at hn0 hp0 hnl hpl hn hp hsp
  have hage := scan_int_fmt_int age ('\n' :: tail) (by
    intro x hx
    simp only [List.head?_cons, Option.some.injEq] at hx
    subst hx
    decide)
  have hphone := scan_set_field phone (fun x hx => (hp x hx).1) 19
    (fmt_int age ++ '\n' :: tail) hpl
  have hname := scan_set_field name (fun x hx => (hn x hx).1) 49
    (phone ++ ';' :: (fmt_int age ++ '\n' :: tail)) hnl
  have htext : fprintf_contact { name := name, phone := phone, age := age } ++ tail =
      name ++ ';' :: (phone ++ ';' :: (fmt_int age ++ '\n' :: tail)) := by
    simp [fprintf_contact]
  rw [htext]
  generalize phone ++ ';' :: (fmt_int age ++ '\n' :: tail) = r2 at hphone hname ⊢
  cases name with
  | nil => exact absurd rfl hn0
  | cons n1 ns =>
    have hskip := skip_ws_of_not_space n1 (ns ++ ';' :: r2) (hsp n1 (by simp))
    have hcn := cstr_of_no_nul (n1 :: ns) (fun x hx => (hn x hx).2)
    rw [List.cons_append] at hname ⊢
    cases phone with
    | nil => exact absurd rfl hp0
    | cons p1 ps =>
      have hcp := cstr_of_no_nul (p1 :: ps) (fun x hx => (hp x hx).2)
      simp only [fscanf_contact, hskip, hname, hphone, hage, hcn, hcp, if_true]

/-! ### The loops of `save_contacts` and `load_contacts` -/

theorem save_loop_spec (a : List Contact) (n : Int) :
    ∀ (k i : Nat) (out : List Char), ((i + k : Nat) : Int) ≤ n → i + k ≤ a.length →
      save_loop a n k i out = out ++ ((a.drop i).take k).flatMap fprintf_contact := by
  intro k
  induction k with
  | zero =>
    intro i out _ _
    simp [save_loop]
  | succ k ih =>
    intro i out hn hlen
    have hin : (i : Int) < n := by omega
    have hi : i < a.length := by omega
    have hget : a.getD i default = a[i] := List.getD_eq_getElem _ _ hi
    have hstep : save_loop a n (k + 1) i out =
        save_loop a n k ((i + 1 : Nat) : Int) (out ++ fprintf_contact a[i]) := by
      simp only [save_loop, if_pos hin, Int.toNat_ofNat, hget, Nat.cast_add, Nat.cast_one]
    rw [hstep, ih (i + 1) _ (by omega) (by omega), List.drop_eq_getElem_cons hi,
      List.take_succ_cons, List.flatMap_cons, List.append_assoc]

/-- The text `save_contacts` writes for the first `n` entries of `a`. -/
theorem save_contacts_text (a : List Contact) (n : Int) (h0 : 0 ≤ n) (hn : n ≤ a.length) :
    save_contacts true a n = some ((a.take n.toNat).flatMap fprintf_contact) := by
  simp only [save_contacts, if_true]
  have h := save_loop_spec a n n.toNat 0 [] (by omega) (by omega)
  rw [Nat.cast_zero] at h
  rw [h]
  simp

theorem save_contacts_all (D : List Contact) :
    save_contacts true D D.length = some (D.flatMap fprintf_contact) := by
  rw [save_contacts_text D D.length (by omega) (le_refl _)]
  simp

theorem set_getD_self (a : List Contact) (i : Nat) : a.set i (a.getD i default) = a := by
  by_cases hi : i < a.length
  · rw [List.getD_eq_getElem _ _ hi]
    exact List.ext_getElem (by simp) (fun j h1 h2 => by
      rw [List.getElem_set]
      split_ifs with hij
      · subst hij; rfl
      · rfl)
  · exact List.set_eq_of_length_le (by omega)

/-- The returned `int` of `fscanf` does not depend on what the entry held. -/
theorem fscanf_contact_ret (cs : List Char) (e : Contact) :
    (fscanf_contact cs e).1 = (fscanf_contact cs default).1 := by
  unfold fscanf_contact
  simp only
  split
  · rfl
  · split
    · rfl
    · split
      · split
        · rfl
        · split
          · rfl
          · split
            · split <;> rfl
            · rfl
      · rfl

/-- Reading the saved lines of loadable contacts `D`, with room for all of
them: the loop stores `D` at the indices `n ..` and goes on with the input
that follows the lines. -/
theorem load_loop_saved (maxn : Int) :
    ∀ (D : List Contact), (∀ c ∈ D, c.loadable) →
      ∀ (fuel : Nat) (a : List Contact) (n : Nat) (tail : List Char),
        ((n + D.length : Nat) : Int) ≤ maxn → D.length ≤ fuel → n + D.length ≤ a.length →
        load_loop maxn fuel (D.flatMap fprintf_contact ++ tail) a n =
          load_loop maxn (fuel - D.length) tail (a.take n ++ D ++ a.drop (n + D.length))
            ((n + D.length : Nat) : Int) := by
  intro D
  induction D with
  | nil =>
    intro _ fuel a n tail _ _ _
    simp
  | cons c D ih =>
    intro hD fuel a n tail hmax hfuel hlen
    simp only [List.length_cons] at hmax hfuel hlen
    cases fuel with
    | zero => omega
    | succ f =>
      have hlt : (n : Int) < maxn := by omega
      have hscan := fscanf_contact_saved c (hD c (List.mem_cons_self c D))
        (D.flatMap fprintf_contact ++ tail) (a.getD n default)
      have hstep : load_loop maxn (f + 1) ((c :: D).flatMap fprintf_contact ++ tail) a n =
          load_loop maxn f (D.flatMap fprintf_contact ++ tail) (a.set n c) ((n + 1 : Nat) : Int) := by
        rw [List.flatMap_cons, List.append_assoc]
        simp only [load_loop, if_pos hlt, Int.toNat_ofNat, hscan, if_true, fgetc, Nat.cast_add,
          Nat.cast_one]
      rw [hstep, ih (fun x hx => hD x (List.mem_cons_of_mem c hx)) f (a.set n c) (n + 1) tail
        (by omega) (by omega) (by rw [List.length_set]; omega)]
      have e1 : f + 1 - (D.length + 1) = f - D.length := by omega
      have e2 : n + 1 + D.length = n + (D.length + 1) := by omega
      have e3 : (a.set n c).take (n + 1) = a.take n ++ [c] := by
        rw [List.take_succ, List.set_take, List.set_eq_of_length_le (by simp),
          List.getElem?_set_self (by omega)]
        rfl
      rw [List.length_cons, e1, e2, e3, List.drop_set_of_lt c a (by omega)]
      simp

theorem fscanf_contact_nil (e : Contact) : fscanf_contact [] e = (EOF, [], e) := rfl

/-- A call of the loop on input whose scan fails: the count stays, and the
entries in front of index `n` stay. -/
theorem load_loop_fail (maxn : Int) (fuel : Nat) (rest : List Char) (a : List Contact) (n : Nat)
    (hrest : (fscanf_contact rest default).1 ≠ 3) :
    (load_loop maxn fuel rest a n).1 = n ∧
    (load_loop maxn fuel rest a n).2.take n = a.take n ∧
    (load_loop maxn fuel rest a n).2.length = a.length := by
  cases fuel with
  | zero => exact ⟨rfl, rfl, rfl⟩
  | succ f =>
    by_cases hlt : (n : Int) < maxn
    · have hret := fscanf_contact_ret rest (a.getD n default)
      rcases hsc : fscanf_contact rest (a.getD n default) with ⟨ret, r, e⟩
      rw [hsc] at hret
      simp only at hret
      have hne : ret ≠ 3 := by rw [hret]; exact hrest
      simp only [load_loop, if_pos hlt, Int.toNat_ofNat, hsc, if_neg hne]
      exact ⟨trivial, by rw [List.set_take, List.set_eq_of_length_le (by simp)], by simp⟩
    · simp only [load_loop, if_neg hlt]
      exact ⟨trivial, trivial, trivial⟩

theorem load_loop_nil (maxn : Int) (fuel : Nat) (a : List Contact) (n : Nat) :
    load_loop maxn fuel [] a n = ((n : Int), a) := by
  cases fuel with
  | zero => rfl
  | succ f =>
    by_cases hlt : (n : Int) < maxn
    · have hne : EOF ≠ 3 := by decide
      simp only [load_loop, if_pos hlt, Int.toNat_ofNat, fscanf_contact_nil, if_neg hne,
        set_getD_self]
    · simp only [load_loop, if_neg hlt]

/-- C3 (amended): for every directory `D` of at most `maxn` loadable
contacts (name and phone non-empty, free of `;`, within 49 and 19
characters, the name not starting with white space), `load_contacts`
applied to the text `save_contacts` writes for `D` returns the count `|D|`
and stores exactly the records of `D`, in order, in the first `|D|` entries;
the entries behind them are not touched. -/
theorem load_save_roundtrip (D a : List Contact) (maxn : Int)
    (hD : ∀ c ∈ D, c.loadable) (h1 : (D.length : Int) ≤ maxn) (h2 : maxn ≤ a.length) :
    load_contacts (save_contacts true D D.length) a maxn =
      ((D.length : Int), D ++ a.drop D.length) := by
  rw [save_contacts_all]
  have h := load_loop_saved maxn D hD maxn.toNat a 0 [] (by omega) (by omega) (by omega)
  simp only [List.append_nil, Nat.zero_add, List.take_zero, List.nil_append, Nat.cast_zero] at h
  simp only [load_contacts, h, load_loop_nil]

/-- Witness of `load_save_roundtrip`: the two contacts of the round-trip
example, loaded into an array of three entries. -/
theorem load_save_roundtrip_witness :
    load_contacts
        (save_contacts true
          [ { name := "Alice".toList, phone := "123-4567".toList, age := 20 },
            { name := "Bob".toList, phone := "555-9876".toList, age := 25 } ] 2)
        (List.replicate 3 default) 3 =
      (2, [ { name := "Alice".toList, phone := "123-4567".toList, age := 20 },
            { name := "Bob".toList, phone := "555-9876".toList, age := 25 } ] ++
          (List.replicate 3 default).drop 2) :=
  load_save_roundtrip
    [ { name := "Alice".toList, phone := "123-4567".toList, age := 20 },
      { name := "Bob".toList, phone := "555-9876".toList, age := 25 } ]
    (List.replicate 3 default) 3 (by decide) (by decide) (by decide)

/-- C3 as stated fails for a contact with an empty phone, which has no `;`
and is within the bounds: its line is `Dan;;40`, the conversion `%19[^;]`
meets `;` at once and matches nothing, `fscanf` returns 1 and the loop ends
with count 0 instead of 1 (only the name has been stored). -/
theorem load_save_empty_phone :
    save_contacts true [ { name := "Dan".toList, phone := [], age := 40 } ] 1 =
      some "Dan;;40\n".toList ∧
    load_contacts (save_contacts true [ { name := "Dan".toList, phone := [], age := 40 } ] 1)
        [ { name := [], phone := [], age := 0 } ] 1 =
      (0, [ { name := "Dan".toList, phone := [], age := 0 } ]) := by
  decide

/-- C4 (amended): `load_contacts` does not skip a record that fails to
scan, it stops there.  For a file that starts with the saved lines of
loadable contacts `D` and goes on with any text `rest` on which the scan of
a record does not yield three fields, the returned count is
`min(|D|, maxn)` and the first `min(|D|, maxn)` entries are the first
records of `D`, in file order; nothing of `rest` is counted, whatever
well-formed lines it holds further on. -/
theorem load_stops_at_failed_scan (D a : List Contact) (maxn : Int) (rest : List Char)
    (hD : ∀ c ∈ D, c.loadable) (h0 : 0 ≤ maxn) (hmax : maxn ≤ a.length)
    (hrest : (fscanf_contact rest default).1 ≠ 3) :
    (load_contacts (some (D.flatMap fprintf_contact ++ rest)) a maxn).1 =
      min (D.length : Int) maxn ∧
    (load_contacts (some (D.flatMap fprintf_contact ++ rest)) a maxn).2.take
      (min D.length maxn.toNat) = D.take maxn.toNat := by
  have hsplit : D.flatMap fprintf_contact ++ rest =
      (D.take maxn.toNat).flatMap fprintf_contact ++
        ((D.drop maxn.toNat).flatMap fprintf_contact ++ rest) := by
    rw [← List.append_assoc, ← List.flatMap_append, List.take_append_drop]
  have hlen : (D.take maxn.toNat).length = min maxn.toNat D.length := List.length_take _ _
  have h := load_loop_saved maxn (D.take maxn.toNat)
    (fun c hc => hD c (List.mem_of_mem_take hc)) maxn.toNat a 0
    ((D.drop maxn.toNat).flatMap fprintf_contact ++ rest)
    (by rw [hlen]; omega) (by rw [hlen]; omega) (by rw [hlen]; omega)
  simp only [Nat.zero_add, List.take_zero, List.nil_append, Nat.cast_zero] at h
  simp only [load_contacts]
  rw [hsplit, h]
  by_cases hcase : maxn.toNat ≤ D.length
  · have hfuel : maxn.toNat - (D.take maxn.toNat).length = 0 := by rw [hlen]; omega
    rw [hfuel]
    simp only [load_loop]
    constructor
    · rw [hlen]; omega
    · rw [min_eq_right hcase]
      exact List.take_left' (by rw [hlen]; omega)
  · have hD1 : D.take maxn.toNat = D := List.take_of_length_le (by omega)
    have hD2 : D.drop maxn.toNat = [] := List.drop_of_length_le (by omega)
    rw [hD1, hD2]
    simp only [List.flatMap_nil, List.nil_append]
    obtain ⟨f1, f2, _⟩ := load_loop_fail maxn (maxn.toNat - D.length) rest
      (D ++ a.drop D.length) D.length hrest
    constructor
    · rw [f1]; omega
    · rw [min_eq_left (by omega), f2]
      simp

/-- Witness of `load_stops_at_failed_scan`: Alice's line, then a line whose
age is not a number, then Cara's well-formed line, which is not loaded. -/
theorem load_stops_at_failed_scan_witness :
    (load_contacts
        (some ([ ({ name := "Alice".toList, phone := "123-4567".toList, age := 20 } : Contact) ].flatMap
            fprintf_contact ++ "Bob;555-9876;abc\nCara;777-0000;30\n".toList))
        (List.replicate 3 default) 3).1 = min (1 : Int) 3 :=
  (load_stops_at_failed_scan
    [ { name := "Alice".toList, phone := "123-4567".toList, age := 20 } ]
    (List.replicate 3 default) 3 "Bob;555-9876;abc\nCara;777-0000;30\n".toList
    (by decide) (by decide) (by decide) (by decide)).1

/-- C4 as stated fails: in the file below the second line is well-formed
(alone it loads as one record), but the first line has no integer age, so
`fscanf` returns 2 on it and the loop ends; the count is 0, not 1, and the
only entry written holds the two fields scanned from the failing line. -/
theorem load_does_not_skip :
    load_contacts (some "Bob;555-9876;abc\nAlice;123-4567;20\n".toList)
        (List.replicate 2 default) 2 =
      (0, [ { name := "Bob".toList, phone := "555-9876".toList, age := 0 }, default ]) ∧
    load_contacts (some "Alice;123-4567;20\n".toList) (List.replicate 2 default) 2 =
      (1, [ { name := "Alice".toList, phone := "123-4567".toList, age := 20 }, default ]) := by
  decide

theorem scan_set_split : ∀ (w : Nat) (s : List Char), (scan_set w s).1 ++ (scan_set w s).2 = s
  | 0, _ => rfl
  | _ + 1, [] => rfl
  | w + 1, c :: cs => by
    by_cases hc : c = ';'
    · simp only [scan_set, if_pos hc, List.nil_append]
    · simp only [scan_set, if_neg hc, List.cons_append, scan_set_split w cs]

theorem skip_ws_count (s : List Char) : (skip_ws s).count ';' ≤ s.count ';' := by
  induction s with
  | nil => exact le_refl _
  | cons c cs ih =>
    by_cases hsp : isspace c = true
    · simp only [skip_ws, hsp, if_true]
      exact le_trans ih (List.count_le_count_cons _ _ _)
    · simp only [skip_ws, hsp, Bool.false_eq_true, if_false]
      exact le_refl _

/-- A call of `fscanf` can only return 3 on input with two `;` in it. -/
theorem fscanf_contact_three (cs : List Char) (e : Contact)
    (h : (fscanf_contact cs e).1 = 3) : 2 ≤ cs.count ';' := by
  have hs1 := scan_set_split 49 (skip_ws cs)
  have hc0 := skip_ws_count cs
  unfold fscanf_contact at h
  simp only at h
  rcases h1 : scan_set 49 (skip_ws cs) with ⟨nm, r1⟩
  rw [h1] at h hs1
  simp only at hs1
  cases nm with
  | nil =>
    simp only at h
    split_ifs at h <;> simp [EOF] at h
  | cons c1 nm =>
    cases r1 with
    | nil => simp at h
    | cons d1 r2 =>
      simp only at h
      by_cases hd1 : d1 = ';'
      · simp only [if_pos hd1] at h
        have hs2 := scan_set_split 19 r2
        rcases h2 : scan_set 19 r2 with ⟨ph, r3⟩
        rw [h2] at h hs2
        simp only at hs2
        cases ph with
        | nil => simp at h
        | cons c2 ph =>
          cases r3 with
          | nil => simp at h
          | cons d2 r4 =>
            simp only at h
            by_cases hd2 : d2 = ';'
            · have hcount : 2 ≤ (skip_ws cs).count ';' := by
                rw [← hs1, ← hs2, hd1, hd2]
                simp only [List.count_append, List.count_cons_self]
                omega
              omega
            · simp [hd2] at h
      · simp [hd1] at h

/-- C5 (amended to the order in which it holds): for every two-line file
whose first line is the saved line of a loadable contact `c` and whose
second line `name;phone` lacks the age field, `load_contacts` with
`maxn >= 2` returns count 1 and the single loaded record is exactly `c`. -/
theorem load_good_line_then_short_line (c : Contact) (nm ph : List Char) (a : List Contact)
    (maxn : Int) (hc : c.loadable) (hnm : ';' ∉ nm) (hph : ';' ∉ ph)
    (h2 : 2 ≤ maxn) (hmax : maxn ≤ a.length) :
    (load_contacts (some (fprintf_contact c ++ (nm ++ ';' :: (ph ++ ['\n'])))) a maxn).1 = 1 ∧
    (load_contacts (some (fprintf_contact c ++ (nm ++ ';' :: (ph ++ ['\n'])))) a maxn).2.take 1 =
      [c] := by
  have hrest : (fscanf_contact (nm ++ ';' :: (ph ++ ['\n'])) default).1 ≠ 3 := by
    intro h3
    have := fscanf_contact_three _ _ h3
    simp only [List.count_append, List.count_cons_self, List.count_eq_zero_of_not_mem hnm,
      List.count_eq_zero_of_not_mem hph] at this
    have hnl : List.count ';' ['\n'] = 0 := by decide
    omega
  have h := load_loop_saved maxn [c]
    (fun x hx => by rw [List.mem_singleton.mp hx]; exact hc) maxn.toNat a 0
    (nm ++ ';' :: (ph ++ ['\n'])) (by simp only [List.length_singleton]; omega)
    (by simp only [List.length_singleton]; omega) (by simp only [List.length_singleton]; omega)
  simp only [List.flatMap_cons, List.flatMap_nil, List.append_nil, List.length_singleton,
    Nat.zero_add, List.take_zero, List.nil_append, Nat.cast_zero, Nat.cast_one] at h
  obtain ⟨f1, f2, _⟩ := load_loop_fail maxn (maxn.toNat - 1) (nm ++ ';' :: (ph ++ ['\n']))
    ([c] ++ a.drop 1) 1 hrest
  simp only [Nat.cast_one] at f1 f2
  simp only [load_contacts, h]
  exact ⟨f1, by rw [f2]; rfl⟩

/-- Witness of `load_good_line_then_short_line`: Alice's line followed by
`Bob;555-9876`. -/
theorem load_good_line_then_short_line_witness :
    (load_contacts (some (fprintf_contact
          { name := "Alice".toList, phone := "123-4567".toList, age := 20 } ++
        ("Bob".toList ++ ';' :: ("555-9876".toList ++ ['\n']))))
      (List.replicate 2 default) 2).1 = 1 ∧
    (load_contacts (some (fprintf_contact
          { name := "Alice".toList, phone := "123-4567".toList, age := 20 } ++
        ("Bob".toList ++ ';' :: ("555-9876".toList ++ ['\n']))))
      (List.replicate 2 default) 2).2.take 1 =
      [ { name := "Alice".toList, phone := "123-4567".toList, age := 20 } ] :=
  load_good_line_then_short_line
    { name := "Alice".toList, phone := "123-4567".toList, age := 20 }
    "Bob".toList "555-9876".toList (List.replicate 2 default) 2
    (by decide) (by decide) (by decide) (by decide) (by decide)

/-- C5 as stated fails when the short line comes first: `%19[^;]` does not
stop at the newline, so the phone field runs on into the next line up to
its first `;`, `%d` then reads `123`, and the one record that is counted is
Bob with the phone `555-9876\nAlice` and the age 123, not the record of the
well-formed line. -/
theorem load_short_line_first :
    load_contacts (some "Bob;555-9876\nAlice;123-4567;20\n".toList)
        (List.replicate 2 default) 2 =
      (1, [ { name := "Bob".toList, phone := "555-9876\nAlice".toList, age := 123 },
            { name := "4567".toList, phone := "20\n".toList, age := 0 } ]) := by
  decide

/-! ### Adding a contact -/

/-- Below the capacity, `add_contact` overwrites the entry at index `n` with
the two truncated strings and the age, and adds one to `n`. -/
theorem add_contact_below (a : List Contact) (n : Int) (name phone : List Char) (age : Int)
    (hn : n < MAXC) :
    add_contact a n name phone age =
      (a.set n.toNat { name := name.take 49, phone := phone.take 19, age := age }, n + 1) := by
  have hge : ¬ (n ≥ MAXC) := by omega
  simp only [add_contact, if_neg hge, snprintf_s]

/-- C13: for an array `a` with room at index `n`, where `0 <= n < MAXC`,
`add_contact` stores at index `n` the contact whose name is the first 49
characters of the given name, whose phone is the first 19 characters of
the given phone and whose age is the given age (so the three given fields
themselves when the strings fit), adds one to `n` and leaves the entries at
the indices `0 .. n-1` as they were; for `n >= MAXC` it returns the array
and `n` unchanged. -/
theorem add_contact_spec (a : List Contact) (n : Int) (name phone : List Char) (age : Int) :
    (0 ≤ n → n < MAXC → n < a.length →
      (add_contact a n name phone age).2 = n + 1 ∧
      (add_contact a n name phone age).1[n.toNat]? =
        some { name := name.take 49, phone := phone.take 19, age := age } ∧
      (name.length ≤ 49 → phone.length ≤ 19 →
        (add_contact a n name phone age).1[n.toNat]? =
          some { name := name, phone := phone, age := age }) ∧
      (add_contact a n name phone age).1.length = a.length ∧
      ∀ i : Nat, (i : Int) < n → (add_contact a n name phone age).1[i]? = a[i]?) ∧
    (MAXC ≤ n → add_contact a n name phone age = (a, n)) := by
  constructor
  · intro h0 hn hlen
    rw [add_contact_below a n name phone age hn]
    have hget : (a.set n.toNat { name := name.take 49, phone := phone.take 19, age := age })[n.toNat]? =
        some { name := name.take 49, phone := phone.take 19, age := age } :=
      List.getElem?_set_self (by omega)
    refine ⟨rfl, hget, fun hnl hpl => ?_, by simp, fun i hi => ?_⟩
    · simp only at hget ⊢
      rw [hget, List.take_of_length_le hnl, List.take_of_length_le hpl]
    · simp only
      exact List.getElem?_set_ne (by omega)
  · intro hge
    simp only [add_contact, if_pos (show n ≥ MAXC from hge)]

/-- Witness of `add_contact_spec`: the second call of `main`, adding Bob
after Alice, and a call on a full book. -/
theorem add_contact_spec_witness :
    ((add_contact (book.set 1 default) 1 "Bob".toList "555-9876".toList 25).2 = 1 + 1 ∧
      (add_contact (book.set 1 default) 1 "Bob".toList "555-9876".toList 25).1[(1 : Int).toNat]? =
        some { name := "Bob".toList.take 49, phone := "555-9876".toList.take 19, age := 25 } ∧
      ("Bob".toList.length ≤ 49 → "555-9876".toList.length ≤ 19 →
        (add_contact (book.set 1 default) 1 "Bob".toList "555-9876".toList 25).1[(1 : Int).toNat]? =
          some { name := "Bob".toList, phone := "555-9876".toList, age := 25 }) ∧
      (add_contact (book.set 1 default) 1 "Bob".toList "555-9876".toList 25).1.length =
        (book.set 1 default).length ∧
      ∀ i : Nat, (i : Int) < 1 →
        (add_contact (book.set 1 default) 1 "Bob".toList "555-9876".toList 25).1[i]? =
          (book.set 1 default)[i]?) ∧
    add_contact book 10 "Dan".toList "000".toList 40 = (book, 10) :=
  ⟨(add_contact_spec (book.set 1 default) 1 "Bob".toList "555-9876".toList 25).1
      (by decide) (by decide) (by decide),
   (add_contact_spec book 10 "Dan".toList "000".toList 40).2 (by decide)⟩

/-- The second call of `main`, evaluated: Bob is stored at index 1 with the
name, phone and age that were passed. -/
theorem add_contact_bob_eval :
    (add_contact (book.set 1 default) 1 "Bob".toList "555-9876".toList 25).1[1]? =
      some { name := "Bob".toList, phone := "555-9876".toList, age := 25 } := by
  decide

/-- The two calls of `main` in `archive/v1/src/ch08/p17.c`, evaluated on an
array of `MAXC` zeroed entries. -/
theorem add_contact_main_eval :
    add_contact
        (add_contact (List.replicate 10 default) 0 "Alice".toList "123-4567".toList 20).1
        (add_contact (List.replicate 10 default) 0 "Alice".toList "123-4567".toList 20).2
        "Bob".toList "555-9876".toList 25 =
      ([ { name := "Alice".toList, phone := "123-4567".toList, age := 20 },
         { name := "Bob".toList, phone := "555-9876".toList, age := 25 } ] ++
        List.replicate 8 default, 2) := by
  decide

/-- C14: with `0 <= n < MAXC`, `add_contact` stores the contact whatever the
lengths of `name` and `phone` are: the stored name is the first
`min(len(name), 49)` characters of `name` and the stored phone the first
`min(len(phone), 19)` characters of `phone`, so a string within its bound
is stored unchanged and a longer one is cut. -/
theorem add_contact_truncates (a : List Contact) (n : Int) (name phone : List Char) (age : Int)
    (h0 : 0 ≤ n) (hn : n < MAXC) (hlen : n < a.length) :
    ∃ e, (add_contact a n name phone age).1[n.toNat]? = some e ∧
      (add_contact a n name phone age).2 = n + 1 ∧
      e.name = name.take (min name.length 49) ∧
      e.phone = phone.take (min phone.length 19) ∧
      e.name.length = min name.length 49 ∧
      e.phone.length = min phone.length 19 ∧
      (name.length ≤ 49 → e.name = name) ∧
      (phone.length ≤ 19 → e.phone = phone) := by
  have htake : ∀ (s : List Char) (k : Nat), s.take (min s.length k) = s.take k := by
    intro s k
    rcases Nat.le_total s.length k with h | h
    · rw [min_eq_left h, List.take_of_length_le h, List.take_of_length_le (le_refl _)]
    · rw [min_eq_right h]
  refine ⟨{ name := name.take 49, phone := phone.take 19, age := age }, ?_, ?_, ?_, ?_, ?_, ?_,
    ?_, ?_⟩
  · rw [add_contact_below a n name phone age hn]
    exact List.getElem?_set_self (by omega)
  · rw [add_contact_below a n name phone age hn]
  · exact (htake name 49).symm
  · exact (htake phone 19).symm
  · simp only [List.length_take]; omega
  · simp only [List.length_take]; omega
  · intro h; exact List.take_of_length_le h
  · intro h; exact List.take_of_length_le h

/-- Witness of `add_contact_truncates`: a phone of 24 characters is cut to
its first 19. -/
theorem add_contact_truncates_witness :
    ∃ e, (add_contact book 3 "Dan".toList "+44 (0)20 7946 0958 x12".toList 41).1[(3 : Int).toNat]? =
        some e ∧
      (add_contact book 3 "Dan".toList "+44 (0)20 7946 0958 x12".toList 41).2 = 3 + 1 ∧
      e.name = "Dan".toList.take (min "Dan".toList.length 49) ∧
      e.phone = "+44 (0)20 7946 0958 x12".toList.take
        (min "+44 (0)20 7946 0958 x12".toList.length 19) ∧
      e.name.length = min "Dan".toList.length 49 ∧
      e.phone.length = min "+44 (0)20 7946 0958 x12".toList.length 19 ∧
      ("Dan".toList.length ≤ 49 → e.name = "Dan".toList) ∧
      ("+44 (0)20 7946 0958 x12".toList.length ≤ 19 →
        e.phone = "+44 (0)20 7946 0958 x12".toList) :=
  add_contact_truncates book 3 "Dan".toList "+44 (0)20 7946 0958 x12".toList 41
    (by decide) (by decide) (by decide)

/-- A phone of 24 characters, evaluated: the entry holds its first 19. -/
theorem add_contact_long_phone_eval :
    (add_contact book 3 "Dan".toList "+44 (0)20 7946 0958 x12".toList 41).1[3]? =
      some { name := "Dan".toList, phone := "+44 (0)20 7946 0958".toList, age := 41 } := by
  decide

/-! ### The text written by `save_contacts` -/

theorem digitChar_eq (d : Nat) (hd : d < 10) : Nat.digitChar d = Char.ofNat (48 + d) := by
  interval_cases d <;> rfl

theorem fmt_nat_aux_eq_toDigitsCore :
    ∀ (fuel n : Nat) (acc : List Char), fmt_nat_aux fuel n acc = Nat.toDigitsCore 10 fuel n acc := by
  intro fuel
  induction fuel with
  | zero => intro n acc; rfl
  | succ f ih =>
    intro n acc
    have hd := digitChar_eq (n % 10) (Nat.mod_lt n (by norm_num))
    by_cases h0 : n / 10 = 0
    · simp only [fmt_nat_aux, Nat.toDigitsCore, if_pos h0, hd]
    · simp only [fmt_nat_aux, Nat.toDigitsCore, if_neg h0, hd, ih]

theorem fmt_nat_eq_toDigits (n : Nat) : fmt_nat n = Nat.toDigits 10 n :=
  fmt_nat_aux_eq_toDigitsCore (n + 1) n []

/-- The digits `%d` prints are those the library prints for the integer. -/
theorem fmt_int_eq_toString (i : Int) : fmt_int i = (toString i).toList := by
  cases i with
  | ofNat m =>
    have hneg : ¬ ((Int.ofNat m) < 0) := by simp
    simp only [fmt_int, if_neg hneg, Int.toNat_ofNat, fmt_nat_eq_toDigits]
    rfl
  | negSucc m =>
    have hneg : Int.negSucc m < 0 := Int.negSucc_lt_zero m
    have hnat : (-(Int.negSucc m)).toNat = m + 1 := by
      rw [Int.neg_negSucc]; rfl
    simp only [fmt_int, if_pos hneg, hnat, fmt_nat_eq_toDigits]
    rfl

theorem fprintf_contact_eq_record_line (c : Contact) : fprintf_contact c = record_line c := by
  simp [fprintf_contact, record_line, fmt_int_eq_toString]

/-- C15: for an array `a` holding at least `n >= 0` contacts, the text
`save_contacts` writes into the opened file is exactly the concatenation,
for `i = 0 .. n-1` in array order, of `a[i].name`, `;`, `a[i].phone`, `;`,
the decimal representation of `a[i].age` and one newline: one line per
contact, nothing before, between or behind the lines, and the fields
copied as they are; when the file cannot be opened nothing is written. -/
theorem save_contacts_format (a : List Contact) (n : Int) (h0 : 0 ≤ n) (hn : n ≤ a.length) :
    save_contacts true a n = some ((a.take n.toNat).flatMap record_line) ∧
    save_contacts false a n = none := by
  refine ⟨?_, rfl⟩
  rw [save_contacts_text a n h0 hn]
  have hfun : fprintf_contact = record_line := funext fprintf_contact_eq_record_line
  rw [hfun]

/-- Witness of `save_contacts_format`: the three contacts that `main` saves. -/
theorem save_contacts_format_witness :
    save_contacts true book 3 = some ((book.take (3 : Int).toNat).flatMap record_line) ∧
    save_contacts false book 3 = none :=
  save_contacts_format book 3 (by decide) (by decide)

/-- The file that `main` of `archive/v1/src/ch08/p20.c` writes, evaluated. -/
theorem save_contacts_main_eval :
    save_contacts true book 3 =
      some "Alice;123-4567;20\nBob;555-9876;25\nCara;777-0000;30\n".toList := by
  decide

/-- A `;` inside a field is written as it is, evaluated on one contact. -/
theorem save_contacts_no_escape_eval :
    save_contacts true [ { name := "Doe; Jane".toList, phone := "1".toList, age := -7 } ] 1 =
      some "Doe; Jane;1;-7\n".toList := by
  decide

/-! ### What `load_contacts` writes, and fields beyond their bound -/

/-- The loop on any input, from `n` records: the count does not go down
and stays within `maxn` (or `n`, if `n` is already beyond), the length of
the array is kept, and the entries in front of index `n` and behind the
index of the final count are as before. -/
theorem load_loop_frame (maxn : Int) :
    ∀ (fuel : Nat) (f : List Char) (a : List Contact) (n : Nat),
      ∃ m : Nat, (load_loop maxn fuel f a n).1 = (m : Int) ∧ n ≤ m ∧
        ((m : Int) ≤ maxn ∨ m = n) ∧
        (load_loop maxn fuel f a n).2.length = a.length ∧
        (load_loop maxn fuel f a n).2.take n = a.take n ∧
        (load_loop maxn fuel f a n).2.drop (m + 1) = a.drop (m + 1) := by
  intro fuel
  induction fuel with
  | zero =>
    intro f a n
    exact ⟨n, rfl, le_refl _, Or.inr rfl, rfl, rfl, rfl⟩
  | succ fuel ih =>
    intro f a n
    by_cases hlt : (n : Int) < maxn
    · rcases hsc : fscanf_contact f (a.getD n default) with ⟨ret, r, e⟩
      by_cases h3 : ret = 3
      · have hstep : load_loop maxn (fuel + 1) f a n =
            load_loop maxn fuel (fgetc r).2 (a.set n e) ((n + 1 : Nat) : Int) := by
          simp only [load_loop, if_pos hlt, Int.toNat_ofNat, hsc, if_pos h3, Nat.cast_add,
            Nat.cast_one]
        obtain ⟨m, h1, h2, h4, h5, h6, h7⟩ := ih (fgetc r).2 (a.set n e) (n + 1)
        rw [hstep]
        refine ⟨m, h1, by omega, Or.inl ?_, ?_, ?_, ?_⟩
        · rcases h4 with h4 | h4
          · exact h4
          · rw [h4]; push_cast; omega
        · rw [h5, List.length_set]
        · have e1 : ∀ l : List Contact, l.take n = (l.take (n + 1)).take n := by
            intro l
            rw [List.take_take, min_eq_left (by omega)]
          rw [e1, h6, ← e1, List.set_take, List.set_eq_of_length_le (by simp)]
        · rw [h7, List.drop_set_of_lt e a (by omega)]
      · have hstep : load_loop maxn (fuel + 1) f a n = ((n : Int), a.set n e) := by
          simp only [load_loop, if_pos hlt, Int.toNat_ofNat, hsc, if_neg h3]
        rw [hstep]
        refine ⟨n, rfl, le_refl _, Or.inr rfl, by simp, ?_, ?_⟩
        · simp only
          rw [List.set_take, List.set_eq_of_length_le (by simp)]
        · simp only
          exact List.drop_set_of_lt e a (by omega)
    · have hstep : load_loop maxn (fuel + 1) f a n = ((n : Int), a) := by
        simp only [load_loop, if_neg hlt]
      rw [hstep]
      exact ⟨n, rfl, le_refl _, Or.inr rfl, rfl, rfl, rfl⟩

/-- Loading a file that starts with the saved lines of loadable contacts
`D`, when either `D` fills the capacity or the scan fails on the text that
follows: the count is `min(|D|, maxn)` and the first entries are those of
`D`. -/
theorem load_saved_general (D a : List Contact) (maxn : Int) (rest : List Char)
    (hD : ∀ c ∈ D, c.loadable) (h0 : 0 ≤ maxn) (hmax : maxn ≤ a.length)
    (hcase : maxn.toNat ≤ D.length ∨ (fscanf_contact rest default).1 ≠ 3) :
    (load_contacts (some (D.flatMap fprintf_contact ++ rest)) a maxn).1 =
      min (D.length : Int) maxn ∧
    (load_contacts (some (D.flatMap fprintf_contact ++ rest)) a maxn).2.take
      (min D.length maxn.toNat) = D.take maxn.toNat := by
  have hsplit : D.flatMap fprintf_contact ++ rest =
      (D.take maxn.toNat).flatMap fprintf_contact ++
        ((D.drop maxn.toNat).flatMap fprintf_contact ++ rest) := by
    rw [← List.append_assoc, ← List.flatMap_append, List.take_append_drop]
  have hlen : (D.take maxn.toNat).length = min maxn.toNat D.length := List.length_take _ _
  have h := load_loop_saved maxn (D.take maxn.toNat)
    (fun c hc => hD c (List.mem_of_mem_take hc)) maxn.toNat a 0
    ((D.drop maxn.toNat).flatMap fprintf_contact ++ rest)
    (by rw [hlen]; omega) (by rw [hlen]; omega) (by rw [hlen]; omega)
  simp only [Nat.zero_add, List.take_zero, List.nil_append, Nat.cast_zero] at h
  simp only [load_contacts]
  rw [hsplit, h]
  by_cases hfull : maxn.toNat ≤ D.length
  · have hfuel : maxn.toNat - (D.take maxn.toNat).length = 0 := by rw [hlen]; omega
    rw [hfuel]
    simp only [load_loop]
    constructor
    · rw [hlen]; omega
    · rw [min_eq_right hfull]
      exact List.take_left' (by rw [hlen]; omega)
  · have hrest : (fscanf_contact rest default).1 ≠ 3 := hcase.resolve_left hfull
    have hD1 : D.take maxn.toNat = D := List.take_of_length_le (by omega)
    have hD2 : D.drop maxn.toNat = [] := List.drop_of_length_le (by omega)
    rw [hD1, hD2]
    simp only [List.flatMap_nil, List.nil_append]
    obtain ⟨f1, f2, _⟩ := load_loop_fail maxn (maxn.toNat - D.length) rest
      (D ++ a.drop D.length) D.length hrest
    constructor
    · rw [f1]; omega
    · rw [min_eq_left (by omega), f2]
      simp

/-- C16 (amended): for every file content and every `maxn >= 0` within the
array, `load_contacts` returns a count `n` with `0 <= n <= maxn`, keeps the
length of the array and leaves every entry at an index above `n` as it
was (only the indices `0 .. n` can be written); and when the file begins
with the saved lines of more than `maxn` loadable contacts, whatever
follows them, the count is exactly `maxn` and the first `maxn` entries are
the first `maxn` records of the file, in order. -/
theorem load_contacts_bounds (file : List Char) (a : List Contact) (maxn : Int)
    (h0 : 0 ≤ maxn) (hmax : maxn ≤ a.length) :
    0 ≤ (load_contacts (some file) a maxn).1 ∧
    (load_contacts (some file) a maxn).1 ≤ maxn ∧
    (load_contacts (some file) a maxn).2.length = a.length ∧
    (load_contacts (some file) a maxn).2.drop ((load_contacts (some file) a maxn).1.toNat + 1) =
      a.drop ((load_contacts (some file) a maxn).1.toNat + 1) ∧
    ∀ (D : List Contact) (rest : List Char), (∀ c ∈ D, c.loadable) → maxn < D.length →
      file = D.flatMap fprintf_contact ++ rest →
      (load_contacts (some file) a maxn).1 = maxn ∧
      (load_contacts (some file) a maxn).2.take maxn.toNat = D.take maxn.toNat := by
  obtain ⟨m, h1, _, h3, h4, _, h6⟩ := load_loop_frame maxn maxn.toNat file a 0
  have hr : load_contacts (some file) a maxn = load_loop maxn maxn.toNat file a ((0 : Nat) : Int) := by
    simp only [load_contacts, Nat.cast_zero]
  refine ⟨?_, ?_, ?_, ?_, ?_⟩
  · rw [hr, h1]; omega
  · rw [hr, h1]
    rcases h3 with h3 | h3
    · exact h3
    · rw [h3]; simpa using h0
  · rw [hr]; exact h4
  · rw [hr, h1, Int.toNat_ofNat]; exact h6
  · intro D rest hD hlt hfile
    obtain ⟨g1, g2⟩ := load_saved_general D a maxn rest hD h0 hmax (Or.inl (by omega))
    rw [hfile]
    refine ⟨by rw [g1]; omega, ?_⟩
    rw [min_eq_right (by omega)] at g2
    exact g2

/-- Witness of `load_contacts_bounds`: three saved lines read into an array
of four entries with `maxn = 2`. -/
theorem load_contacts_bounds_witness :
    (load_contacts (some ((book.take 3).flatMap fprintf_contact ++ []))
        (List.replicate 4 default) 2).1 = 2 ∧
    (load_contacts (some ((book.take 3).flatMap fprintf_contact ++ []))
        (List.replicate 4 default) 2).2.take (2 : Int).toNat = (book.take 3).take (2 : Int).toNat :=
  (load_contacts_bounds ((book.take 3).flatMap fprintf_contact ++ [])
    (List.replicate 4 default) 2 (by decide) (by decide)).2.2.2.2
    (book.take 3) [] (by decide) (by decide) rfl

/-- C16 as stated fails, in both halves.  On the file `Eve` the scan stores
the name in the entry at index 0, finds no `;` and fails, so the count is 0
and yet the entry at index 0, which is not below the count, has been
written.  And the second file holds two well-formed records, more than
`maxn = 1`, behind a line without an integer age: the loop ends at that
first line and the count is 0, not `maxn`. -/
theorem load_writes_entry_at_count :
    load_contacts (some "Eve".toList) [ { name := [], phone := [], age := 0 } ] 1 =
      (0, [ { name := "Eve".toList, phone := [], age := 0 } ]) ∧
    load_contacts (some "Bob;555-9876;abc\nAlice;123-4567;20\nCara;777-0000;30\n".toList)
        [ { name := [], phone := [], age := 0 } ] 1 =
      (0, [ { name := "Bob".toList, phone := "555-9876".toList, age := 0 } ]) := by
  decide

/-- The conversion `%w[^;]` on a run of at least `w` characters without
`;`: it takes the first `w` of them and leaves the others in the input. -/
theorem scan_set_long (s : List Char) (hs : ∀ x ∈ s, x ≠ ';') :
    ∀ (w : Nat) (tail : List Char), w ≤ s.length →
      scan_set w (s ++ tail) = (s.take w, s.drop w ++ tail) := by
  induction s with
  | nil =>
    intro w tail hw
    have : w = 0 := by simpa using hw
    subst this
    rfl
  | cons c cs ih =>
    intro w tail hw
    cases w with
    | zero => rfl
    | succ w =>
      have hc : c ≠ ';' := hs c (List.mem_cons_self c cs)
      have hrec := ih (fun x hx => hs x (List.mem_cons_of_mem c hx)) w tail
        (by simpa using hw)
      rw [List.cons_append]
      simp only [scan_set, if_neg hc, hrec, List.cons, List.take_succ_cons, List.drop_succ_cons]

/-- A record whose name runs to more than 49 characters: `%49[^;]` takes 49
of them, the next character is not the `;` the format asks for, and
`fscanf` returns 1. -/
theorem fscanf_contact_long_name (nm tail : List Char) (e : Contact)
    (hs : ∀ x ∈ nm, x ≠ ';') (hsp : ∀ x ∈ nm.head?, isspace x = false)
    (hlong : 49 < nm.length) :
    (fscanf_contact (nm ++ tail) e).1 = 1 := by
  have hscan := scan_set_long nm hs 49 tail (by omega)
  have htake : (nm.take 49).length = 49 := by rw [List.length_take]; omega
  have hdrop : (nm.drop 49).length = nm.length - 49 := List.length_drop _ _
  cases nm with
  | nil => simp at hlong
  | cons n1 ns =>
    have hskip := skip_ws_of_not_space n1 (ns ++ tail) (hsp n1 (by simp))
    rw [List.cons_append] at hscan ⊢
    cases ht : (n1 :: ns).take 49 with
    | nil => rw [ht] at htake; simp at htake
    | cons c1 cs =>
      cases hd : (n1 :: ns).drop 49 with
      | nil =>
        rw [hd] at hdrop
        simp only [List.length_nil, List.length_cons] at hdrop hlong
        omega
      | cons d1 ds =>
        have hd1 : d1 ≠ ';' := hs d1 (List.mem_of_mem_drop (by rw [hd]; exact List.mem_cons_self d1 ds))
        rw [ht, hd, List.cons_append] at hscan
        simp only [fscanf_contact, hskip, hscan, if_neg hd1]

/-- A record with a fitting name whose phone runs to more than 19
characters: `%19[^;]` takes 19 of them, the next character is not `;`, and
`fscanf` returns 2. -/
theorem fscanf_contact_long_phone (nm ph tail : List Char) (e : Contact)
    (hn0 : nm ≠ []) (hnl : nm.length ≤ 49)
    (hs : ∀ x ∈ nm, x ≠ ';') (hsp : ∀ x ∈ nm.head?, isspace x = false)
    (hp : ∀ x ∈ ph, x ≠ ';') (hlong : 19 < ph.length) :
    (fscanf_contact (nm ++ ';' :: (ph ++ tail)) e).1 = 2 := by
  have hname := scan_set_field nm hs 49 (ph ++ tail) hnl
  have hscan := scan_set_long ph hp 19 tail (by omega)
  have htake : (ph.take 19).length = 19 := by rw [List.length_take]; omega
  have hdrop : (ph.drop 19).length = ph.length - 19 := List.length_drop _ _
  cases nm with
  | nil => exact absurd rfl hn0
  | cons n1 ns =>
    have hskip := skip_ws_of_not_space n1 (ns ++ ';' :: (ph ++ tail)) (hsp n1 (by simp))
    rw [List.cons_append] at hname ⊢
    cases ht : ph.take 19 with
    | nil => rw [ht] at htake; simp at htake
    | cons c1 cs =>
      cases hd : ph.drop 19 with
      | nil =>
        rw [hd] at hdrop
        simp only [List.length_nil, List.length_cons] at hdrop hlong
        omega
      | cons d1 ds =>
        have hd1 : d1 ≠ ';' := hp d1 (List.mem_of_mem_drop (by rw [hd]; exact List.mem_cons_self d1 ds))
        rw [ht, hd, List.cons_append] at hscan
        simp only [fscanf_contact, hskip, hname, hscan, if_true, if_neg hd1]

/-- C18 (amended): a field beyond its bound is not truncated, the line is
refused and loading stops there.  For a file that starts with the saved
lines of loadable contacts `D` and goes on with a line `name;phone;age`
that is well-formed except that its name has more than 49 characters, or
its phone more than 19, the returned count is `min(|D|, maxn)` and the
first entries are those of `D`: neither that line nor any line after it is
loaded. -/
theorem load_stops_at_long_field (D a : List Contact) (maxn : Int)
    (nm ph : List Char) (age : Int) (rest : List Char)
    (hD : ∀ c ∈ D, c.loadable) (h0 : 0 ≤ maxn) (hmax : maxn ≤ a.length)
    (hn0 : nm ≠ []) (hs : ∀ x ∈ nm, x ≠ ';') (hsp : ∀ x ∈ nm.head?, isspace x = false)
    (hp : ∀ x ∈ ph, x ≠ ';')
    (hlong : 49 < nm.length ∨ (nm.length ≤ 49 ∧ 19 < ph.length)) :
    (load_contacts (some (D.flatMap fprintf_contact ++
        (nm ++ ';' :: (ph ++ ';' :: (fmt_int age ++ '\n' :: rest))))) a maxn).1 =
      min (D.length : Int) maxn ∧
    (load_contacts (some (D.flatMap fprintf_contact ++
        (nm ++ ';' :: (ph ++ ';' :: (fmt_int age ++ '\n' :: rest))))) a maxn).2.take
      (min D.length maxn.toNat) = D.take maxn.toNat := by
  have hfail : (fscanf_contact (nm ++ ';' :: (ph ++ ';' :: (fmt_int age ++ '\n' :: rest)))
      default).1 ≠ 3 := by
    rcases hlong with h | ⟨h1, h2⟩
    · rw [fscanf_contact_long_name nm _ default hs hsp h]; decide
    · rw [fscanf_contact_long_phone nm ph _ default hn0 h1 hs hsp hp h2]; decide
  exact load_saved_general D a maxn _ hD h0 hmax (Or.inr hfail)

/-- Witness of `load_stops_at_long_field`: Alice's line, then a line whose
phone has 24 characters, then Cara's line. -/
theorem load_stops_at_long_field_witness :
    (load_contacts (some ((book.take 1).flatMap fprintf_contact ++
        ("Dan".toList ++ ';' :: ("+44 (0)20 7946 0958 x12".toList ++ ';' ::
          (fmt_int 41 ++ '\n' :: "Cara;777-0000;30\n".toList)))))
      (List.replicate 3 default) 3).1 = min ((book.take 1).length : Int) 3 ∧
    (load_contacts (some ((book.take 1).flatMap fprintf_contact ++
        ("Dan".toList ++ ';' :: ("+44 (0)20 7946 0958 x12".toList ++ ';' ::
          (fmt_int 41 ++ '\n' :: "Cara;777-0000;30\n".toList)))))
      (List.replicate 3 default) 3).2.take (min (book.take 1).length (3 : Int).toNat) =
      (book.take 1).take (3 : Int).toNat :=
  load_stops_at_long_field (book.take 1) (List.replicate 3 default) 3
    "Dan".toList "+44 (0)20 7946 0958 x12".toList 41 "Cara;777-0000;30\n".toList
    (by decide) (by decide) (by decide) (by decide) (by decide) (by decide) (by decide)
    (by decide)

/-- C18 as stated fails: the first line below has a name of 50 characters
and is otherwise well-formed, the second line is well-formed.  `%49[^;]`
stores the first 49 characters, the fiftieth is not `;`, `fscanf` returns 1
and the loop ends: the count is 0, nothing is loaded from either line. -/
theorem load_long_name_not_truncated :
    load_contacts
        (some "xxxxxxxxxxxxxxxxxxxxxxxxxxxxxxxxxxxxxxxxxxxxxxxxxx;1;20\nAlice;123-4567;20\n".toList)
        (List.replicate 2 default) 2 =
      (0, [ { name := "xxxxxxxxxxxxxxxxxxxxxxxxxxxxxxxxxxxxxxxxxxxxxxxxx".toList, phone := [], age := 0 }, default ]) := by
  decide

end Ch08

/-! ## Theorems: the palindrome test -/

namespace Ch12P25

/-- The three calls of `main`, evaluated: "Radar" and "level" are accepted,
"not this" is refused. -/
theorem is_palindrome_main_eval :
    is_palindrome "Radar".toList = Outcome.ret 1 ∧
    is_palindrome "level".toList = Outcome.ret 1 ∧
    is_palindrome "not this".toList = Outcome.ret 0 := by
  decide

/-- C19 fails on the string "a.": the second inner loop lowers `j` from 1
to 0, the characters at `i = j = 0` compare equal, and `i++; j--;` leaves
`i = 1` and `j` wrapped around to `2 ^ 64 - 1`.  The test `i<j` holds again,
so the first inner loop reads `s[1]`, then `s[2]` (the NUL, at index
`strlen(s)`), then `s[3]`, which lies outside the array. -/
theorem is_palindrome_index_wraps :
    skip_right "a.".toList 0 4 1 = Except.ok 0 ∧
    pal_loop "a.".toList 4 0 1 = pal_loop "a.".toList 3 1 (2 ^ 64 - 1) ∧
    read "a.".toList 2 = some (Char.ofNat 0) ∧
    read "a.".toList 3 = none ∧
    is_palindrome "a.".toList = Outcome.oob 3 (2 ^ 64 - 1) :=
  ⟨rfl, by decide, by decide, by decide, by decide⟩

theorem read_lt (s : List Char) (i : Nat) (h : i < s.length) : read s i = some s[i] := by
  simp only [read, if_pos h, List.getElem?_eq_getElem h]

theorem read_nul (s : List Char) : read s s.length = some (Char.ofNat 0) := by
  simp [read]

theorem read_past (s : List Char) (i : Nat) (h : s.length < i) : read s i = none := by
  have h1 : ¬ (i < s.length) := by omega
  have h2 : i ≠ s.length := by omega
  simp only [read, if_neg h1, if_neg h2]

/-- The second inner loop, started at index `k` with `i = 0`, walks down to
0 when the characters at the indices `1 .. k` are not alphanumeric. -/
theorem skip_right_down (s : List Char) :
    ∀ (k fuel : Nat), k < s.length → k < fuel → k < SIZE_MOD →
      (∀ (idx : Nat) (h : idx < s.length), 1 ≤ idx → idx ≤ k → isalnum s[idx] = false) →
      skip_right s 0 fuel k = Except.ok 0 := by
  intro k
  induction k with
  | zero =>
    intro fuel _ hf _ _
    cases fuel with
    | zero => omega
    | succ f => simp only [skip_right, Nat.lt_irrefl, if_false]
  | succ k ih =>
    intro fuel hk hf hmod hna
    cases fuel with
    | zero => omega
    | succ f =>
      have hpos : 0 < k + 1 := by omega
      have hc := hna (k + 1) hk (by omega) (le_refl _)
      have hstep : (k + 1 + SIZE_MOD - 1) % SIZE_MOD = k := by
        have : k + 1 + SIZE_MOD - 1 = k + SIZE_MOD := by omega
        rw [this, Nat.add_mod_right, Nat.mod_eq_of_lt (by omega)]
      simp only [skip_right, if_pos hpos, read_lt s (k + 1) hk, hc, Bool.not_false, if_true,
        hstep]
      exact ih f (by omega) (by omega) (by omega)
        (fun idx h h1 h2 => hna idx h h1 (by omega))

/-- The first inner loop, started at an index `i >= 1` with `j` beyond the
array, walks up through characters that are not alphanumeric and through
the NUL, and reads outside the array at index `strlen(s) + 1`. -/
theorem skip_left_up (s : List Char) (J : Nat) (hJ : s.length + 1 < J) (hmod : J ≤ SIZE_MOD) :
    ∀ (d i fuel : Nat), i + d = s.length + 1 → d < fuel →
      (∀ (idx : Nat) (h : idx < s.length), i ≤ idx → isalnum s[idx] = false) →
      skip_left s J fuel i = Except.error (Outcome.oob (s.length + 1) J) := by
  intro d
  induction d with
  | zero =>
    intro i fuel hi hf _
    cases fuel with
    | zero => omega
    | succ f =>
      have hi' : i = s.length + 1 := by omega
      subst hi'
      simp only [skip_left, if_pos hJ, read_past s (s.length + 1) (by omega)]
  | succ d ih =>
    intro i fuel hi hf hna
    cases fuel with
    | zero => omega
    | succ f =>
      have hlt : i < J := by omega
      have hstep : (i + 1) % SIZE_MOD = i + 1 := Nat.mod_eq_of_lt (by omega)
      have hrec := ih (i + 1) f (by omega) (by omega)
        (fun idx h h1 => hna idx h (by omega))
      by_cases hin : i < s.length
      · have hc := hna i hin (le_refl _)
        simp only [skip_left, if_pos hlt, read_lt s i hin, hc, Bool.not_false, if_true, hstep,
          hrec]
      · have hi' : i = s.length := by omega
        subst hi'
        have hnul : isalnum (Char.ofNat 0) = false := by decide
        simp only [skip_left, if_pos hlt, read_nul, hnul, Bool.not_false, if_true, hstep, hrec]

/-- The failing inputs of C19 as a class: on every string of at least two
characters whose first character is alphanumeric and whose other
characters are not, `j` wraps to `2 ^ 64 - 1` and the call reads outside
the array, at index `strlen(s) + 1`. -/
theorem is_palindrome_only_first_alnum (c : Char) (rest : List Char)
    (hc : isalnum c = true) (hrest : rest ≠ []) (hna : ∀ x ∈ rest, isalnum x = false)
    (hlen : rest.length + 3 < SIZE_MOD) :
    is_palindrome (c :: rest) = Outcome.oob (rest.length + 2) (SIZE_MOD - 1) := by
  have hpos : 0 < rest.length := List.length_pos.mpr hrest
  have hL : (c :: rest).length = rest.length + 1 := rfl
  have hne : (c :: rest).length ≠ 0 := by rw [hL]; omega
  have htail : ∀ (idx : Nat) (h : idx < (c :: rest).length), 1 ≤ idx →
      isalnum (c :: rest)[idx] = false := by
    intro idx h h1
    obtain ⟨k, rfl⟩ : ∃ k, idx = k + 1 := ⟨idx - 1, by omega⟩
    rw [List.getElem_cons_succ]
    exact hna _ (List.getElem_mem _)
  have hright := skip_right_down (c :: rest) rest.length ((c :: rest).length + 2)
    (by rw [hL]; omega) (by rw [hL]; omega) (by omega) (fun idx h h1 _ => htail idx h h1)
  have hleft := skip_left_up (c :: rest) (SIZE_MOD - 1) (by rw [hL]; omega) (by omega)
    (rest.length + 1) 1 ((c :: rest).length + 2) (by rw [hL]; omega) (by rw [hL]; omega)
    (fun idx h h1 => htail idx h h1)
  have h0 : read (c :: rest) 0 = some c := read_lt (c :: rest) 0 (by rw [hL]; omega)
  have hfirst : skip_left (c :: rest) rest.length ((c :: rest).length + 2) 0 = Except.ok 0 := by
    simp only [skip_left, if_pos hpos, h0, hc, Bool.not_true, Bool.false_eq_true, if_false]
  have hwrap : (0 + SIZE_MOD - 1) % SIZE_MOD = SIZE_MOD - 1 := by
    rw [Nat.zero_add]; exact Nat.mod_eq_of_lt (by simp only [SIZE_MOD]; norm_num)
  have hone : (0 + 1) % SIZE_MOD = 1 := Nat.mod_eq_of_lt (by simp only [SIZE_MOD]; norm_num)
  have hagain : 1 < SIZE_MOD - 1 := by omega
  have hsub : (c :: rest).length - 1 = rest.length := by rw [hL]; omega
  have hfuel : (c :: rest).length + 2 = ((c :: rest).length + 1) + 1 := rfl
  unfold is_palindrome
  rw [if_neg hne, hsub]
  conv_lhs => rw [hfuel]
  rw [pal_loop]
  simp only [if_pos hpos, hfirst, hright, h0, ne_eq, not_true_eq_false, if_false, hwrap, hone]
  rw [pal_loop]
  rw [hL] at hleft
  simp only [if_pos hagain, hL, hleft]

/-- Witness of `is_palindrome_only_first_alnum`: the string "a.". -/
theorem is_palindrome_only_first_alnum_witness :
    is_palindrome ('a' :: ['.']) = Outcome.oob (['.'].length + 2) (SIZE_MOD - 1) :=
  is_palindrome_only_first_alnum 'a' ['.'] (by decide) (by decide) (by decide) (by decide)

/-! ### The fuel of the model is never exhausted -/

theorem read_some_le (s : List Char) (i : Nat) (c : Char) (h : read s i = some c) :
    i ≤ s.length := by
  by_contra hlt
  rw [read_past s i (by omega)] at h
  exact absurd h (by simp)

theorem skip_left_fuel (s : List Char) (j : Nat) (hj : j < SIZE_MOD) :
    ∀ (fuel i : Nat), 1 ≤ fuel → s.length + 2 ≤ fuel + i →
      skip_left s j fuel i ≠ Except.error Outcome.no_fuel ∧
      ∀ i1, skip_left s j fuel i = Except.ok i1 → i ≤ i1 := by
  intro fuel
  induction fuel with
  | zero => intro i h1 _; omega
  | succ f ih =>
    intro i _ hf
    by_cases hlt : i < j
    · cases hr : read s i with
      | none =>
        simp only [skip_left, if_pos hlt, hr]
        exact ⟨by simp, fun i1 h => by simp at h⟩
      | some c =>
        have hle := read_some_le s i c hr
        by_cases hc : isalnum c = true
        · simp only [skip_left, if_pos hlt, hr, hc, Bool.not_true, Bool.false_eq_true, if_false]
          exact ⟨by simp, fun i1 h => by simp only [Except.ok.injEq] at h; omega⟩
        · have hc' : isalnum c = false := by simpa using hc
          have hstep : (i + 1) % SIZE_MOD = i + 1 := Nat.mod_eq_of_lt (by omega)
          simp only [skip_left, if_pos hlt, hr, hc', Bool.not_false, if_true, hstep]
          obtain ⟨g1, g2⟩ := ih (i + 1) (by omega) (by omega)
          exact ⟨g1, fun i1 h => by have := g2 i1 h; omega⟩
    · simp only [skip_left, if_neg hlt]
      exact ⟨by simp, fun i1 h => by simp only [Except.ok.injEq] at h; omega⟩

theorem skip_right_fuel (s : List Char) (i : Nat) :
    ∀ (fuel j : Nat), 1 ≤ fuel → (j ≤ s.length → j < fuel) → j < SIZE_MOD →
      skip_right s i fuel j ≠ Except.error Outcome.no_fuel := by
  intro fuel
  induction fuel with
  | zero => intro j h1 _ _; omega
  | succ f ih =>
    intro j _ hf hj
    by_cases hlt : i < j
    · cases hr : read s j with
      | none =>
        simp only [skip_right, if_pos hlt, hr]
        simp
      | some c =>
        have hle := read_some_le s j c hr
        by_cases hc : isalnum c = true
        · simp only [skip_right, if_pos hlt, hr, hc, Bool.not_true, Bool.false_eq_true, if_false]
          simp
        · have hc' : isalnum c = false := by simpa using hc
          have hstep : (j + SIZE_MOD - 1) % SIZE_MOD = j - 1 := by
            have : j + SIZE_MOD - 1 = (j - 1) + SIZE_MOD := by omega
            rw [this, Nat.add_mod_right, Nat.mod_eq_of_lt (by omega)]
          have hjf := hf hle
          simp only [skip_right, if_pos hlt, hr, hc', Bool.not_false, if_true, hstep]
          exact ih (j - 1) (by omega) (fun _ => by omega) (by omega)
    · simp only [skip_right, if_neg hlt]
      simp

theorem pal_loop_fuel (s : List Char) (hlen : s.length + 1 < SIZE_MOD) :
    ∀ (fuel i j : Nat), 1 ≤ fuel → s.length + 2 ≤ fuel + i → j < SIZE_MOD →
      pal_loop s fuel i j ≠ Outcome.no_fuel := by
  intro fuel
  induction fuel with
  | zero => intro i j h1 _ _; omega
  | succ f ih =>
    intro i j _ hf hj
    by_cases hlt : i < j
    · obtain ⟨hl1, hl2⟩ := skip_left_fuel s j hj (s.length + 2) i (by omega) (by omega)
      cases hsl : skip_left s j (s.length + 2) i with
      | error o =>
        simp only [pal_loop, if_pos hlt, hsl]
        intro ho
        rw [hsl, ho] at hl1
        exact hl1 rfl
      | ok i1 =>
        have hi1 := hl2 i1 hsl
        have hr1 := skip_right_fuel s i1 (s.length + 2) j (by omega) (fun _ => by omega) hj
        cases hsr : skip_right s i1 (s.length + 2) j with
        | error o =>
          simp only [pal_loop, if_pos hlt, hsl, hsr]
          intro ho
          rw [hsr, ho] at hr1
          exact hr1 rfl
        | ok j1 =>
          cases hx : read s i1 with
          | none =>
            simp only [pal_loop, if_pos hlt, hsl, hsr, hx]
            simp
          | some x =>
            cases hy : read s j1 with
            | none =>
              simp only [pal_loop, if_pos hlt, hsl, hsr, hx, hy]
              simp
            | some y =>
              have hle := read_some_le s i1 x hx
              have hstep : (i1 + 1) % SIZE_MOD = i1 + 1 := Nat.mod_eq_of_lt (by omega)
              simp only [pal_loop, if_pos hlt, hsl, hsr, hx, hy, hstep]
              split_ifs with hneq
              · simp
              · exact ih (i1 + 1) _ (by omega) (by omega)
                  (Nat.mod_lt _ (by simp only [SIZE_MOD]; norm_num))
    · simp only [pal_loop, if_neg hlt]
      simp

/-- On every string that fits in the address space the call either returns
or reads outside the array: the fuel given to the loops is enough. -/
theorem is_palindrome_fuel (s : List Char) (hlen : s.length + 1 < SIZE_MOD) :
    is_palindrome s ≠ Outcome.no_fuel := by
  unfold is_palindrome
  split_ifs with h0
  · simp
  · exact pal_loop_fuel s hlen (s.length + 2) 0 (s.length - 1) (by omega) (by omega) (by omega)

end Ch12P25
